import Mathlib

/-!
# Verification of the ATS-CV backend (`src/app.py`)

A shallow embedding of the document-generation core of `app.py`:

* `clean_ai_output`  — the cleanup filter (two regex substitutions and a strip),
* the section splitter used by `create_docx`
  (`re.split(r"(?=Summary|Key Skills|...)", cv_text)` followed by per-piece
  heading/body extraction),
* `create_docx` and `create_pdf` — the two renderers, modelled as producers of
  abstract document structures,
* `generate_cv` — the request handler: field defaulting, validation, the
  external text-generation call (abstracted as a function parameter), filename
  construction and format dispatch.

Strings are modelled as `List Char`.  Python string primitives (`strip`,
`splitlines`, `split("\n")`, `title`, `lower`, `replace`) are given explicit
executable models; regex matching is modelled by recursive scanners with
Python's leftmost, non-overlapping replacement semantics.
-/

set_option maxHeartbeats 1000000
set_option maxRecDepth 100000

/-- Characters treated as whitespace by Python's `str.strip()` / regex `\s`
(ASCII range plus the C1 controls Python also counts; exotic non-Latin-1
space code points are outside the model). -/
def isPySpace (c : Char) : Bool :=
  c = ' ' || c = '\t' || c = '\n' || c = '\r' || c = '\x0b' || c = '\x0c' ||
  c = '\x1c' || c = '\x1d' || c = '\x1e' || c = '\x1f' || c = '\x85' || c = '\xa0'

/-- Line-boundary characters recognised by Python's `str.splitlines()`
(within the Latin-1 subset of the model). -/
def isLineBreakChar (c : Char) : Bool :=
  c = '\n' || c = '\r' || c = '\x0b' || c = '\x0c' ||
  c = '\x1c' || c = '\x1d' || c = '\x1e' || c = '\x85'

/-- The characters of the decorative-separator class `[-_=]` removed (in runs
of two or more) by the second substitution of `clean_ai_output`. -/
def isSep (c : Char) : Bool :=
  c = '-' || c = '_' || c = '='

/-- Convenience: the character list underlying a string literal. -/
def strL (s : String) : List Char := s.data

/-- Drop trailing characters satisfying `isPySpace` (the right half of
Python's `str.strip()`), defined by structural recursion. -/
def dropTrail : List Char → List Char
  | [] => []
  | c :: rest =>
    let r := dropTrail rest
    if r.isEmpty && isPySpace c then [] else c :: r

/-- Python's `str.strip()`: remove leading and trailing whitespace. -/
def pystrip (l : List Char) : List Char :=
  dropTrail (l.dropWhile isPySpace)

/-- Worker for `splitlines`: cut at every line boundary (`"\r\n"` counts as
one boundary), keeping a trailing empty piece when the text ends with a
boundary. -/
def breakSplit : List Char → List (List Char)
  | [] => [[]]
  | '\r' :: '\n' :: rest => [] :: breakSplit rest
  | c :: rest =>
    if isLineBreakChar c then [] :: breakSplit rest
    else
      match breakSplit rest with
      | [] => [[]]
      | h :: t => (c :: h) :: t

/-- Python's `str.splitlines()`: like `breakSplit`, except that
`"".splitlines() == []` and a trailing boundary produces no trailing empty
line. -/
def splitlines (l : List Char) : List (List Char) :=
  if l.isEmpty then []
  else if (breakSplit l).getLast? = some [] then (breakSplit l).dropLast
  else breakSplit l

/-- Python's `"\n".join(...)`. -/
def joinNL : List (List Char) → List Char
  | [] => []
  | [l] => l
  | l :: ls => l ++ '\n' :: joinNL ls

/-- Python's `str.split("\n")`: always returns at least one piece and keeps
empty pieces (`"".split("\n") == [""]`). -/
def splitNL : List Char → List (List Char)
  | [] => [[]]
  | c :: rest =>
    match splitNL rest with
    | [] => [[]]
    | h :: t => if c = '\n' then [] :: h :: t else (c :: h) :: t

/-- Python's `str.lower()` (ASCII model). -/
def pyLower (l : List Char) : List Char := l.map Char.toLower

/-- Python's single-character `str.replace(a, b)`. -/
def replaceChar (a b : Char) (l : List Char) : List Char :=
  l.map fun c => if c = a then b else c

/-- The ASCII cased characters (the "cased" letters Python's `str.title()`
capitalises at word starts). -/
def casedChars : List Char :=
  strL "abcdefghijklmnopqrstuvwxyzABCDEFGHIJKLMNOPQRSTUVWXYZ"

def isCasedChar (c : Char) : Bool := casedChars.contains c

/-- Python's `str.title()` worker.  `prevCased` records whether the previous
character was cased: a cased character after an uncased one is uppercased,
any other cased character is lowercased, uncased characters pass through. -/
def pyTitleGo (prevCased : Bool) : List Char → List Char
  | [] => []
  | c :: rest =>
    if isCasedChar c then
      (if prevCased then c.toLower else c.toUpper) :: pyTitleGo true rest
    else
      c :: pyTitleGo false rest

/-- Python's `str.title()` (ASCII model). -/
def pyTitle (l : List Char) : List Char := pyTitleGo false l

/-- Case-insensitive "starts with": `pat` is expected pre-lowercased. -/
def ciStartsWith : List Char → List Char → Bool
  | [], _ => true
  | _ :: _, [] => false
  | p :: ps, c :: cs => (c.toLower = p) && ciStartsWith ps cs

/-- The length of the whitespace run following the literal `tailored` in a
candidate match of the pattern of `app.py` line 30. -/
def wsLen (s : List Char) : Nat :=
  ((s.drop 8).takeWhile isPySpace).length

/-- The remainder of `s` after `tailored` and the following whitespace run. -/
def afterWs (s : List Char) : List Char :=
  (s.drop 8).drop (wsLen s)

/-- `app.py` line 30: the pattern `(?i)tailored\s*(cv|resume)`.  Returns the
length of the match at the head of `s`, if any.  (The greedy `\s*` needs no
backtracking: neither alternative starts with a whitespace character.) -/
def matchTailored (s : List Char) : Option Nat :=
  if ciStartsWith (strL "tailored") s then
    if ciStartsWith (strL "cv") (afterWs s) then some (10 + wsLen s)
    else if ciStartsWith (strL "resume") (afterWs s) then some (14 + wsLen s)
    else none
  else none

/-- Fuel-indexed worker for `sub1` (fuel at least the input length makes the
fuel irrelevant; see `sub1_eq`). -/
def sub1Fuel : Nat → List Char → List Char
  | 0, s => s
  | f + 1, s =>
    match matchTailored s with
    | some n => sub1Fuel f (s.drop n)
    | none =>
      match s with
      | [] => []
      | c :: cs => c :: sub1Fuel f cs

/-- `app.py` line 30: `re.sub(r"(?i)tailored\s*(cv|resume)", "", text)` —
delete every (leftmost, non-overlapping) match. -/
def sub1 (s : List Char) : List Char := sub1Fuel s.length s

/-- Fuel-indexed worker for `sub2` (see `sub2_eq`). -/
def sub2Fuel : Nat → List Char → List Char
  | 0, s => s
  | _ + 1, [] => []
  | f + 1, c :: cs =>
    if isSep c then
      if cs.head?.any isSep then
        sub2Fuel f (cs.dropWhile isSep)
      else
        c :: sub2Fuel f cs
    else
      c :: sub2Fuel f cs

/-- `app.py` line 31: `re.sub(r"[-_=]{2,}", "", text)` — delete every maximal
run of two or more separator characters. -/
def sub2 (s : List Char) : List Char := sub2Fuel s.length s

/-- `app.py` lines 28-32: `clean_ai_output`. -/
def clean_ai_output (s : List Char) : List Char :=
  pystrip (sub2 (sub1 s))

/-- The fixed, ordered set of recognised section labels
(`app.py` lines 48 and 90). -/
def labelsL : List (List Char) :=
  [strL "Summary", strL "Key Skills", strL "Professional Experience",
   strL "Education", strL "Certifications", strL "Additional Information"]

/-- Does some recognised label start at the head of `s`?  This is the
zero-width lookahead `(?=Summary|Key Skills|...)` of `app.py` line 48,
tested at one position. -/
def isLabelAt (s : List Char) : Bool :=
  labelsL.any fun l => l.isPrefixOf s

/-- Worker for `re.split` with the zero-width label lookahead: walk the text,
cutting immediately before every position at which a label starts.  `acc`
holds the current piece, reversed. -/
def goSplit (acc : List Char) : List Char → List (List Char)
  | [] => [acc.reverse]
  | c :: rest =>
    if isLabelAt (c :: rest) then
      acc.reverse :: goSplit [c] rest
    else
      goSplit (c :: acc) rest

/-- `app.py` lines 47-50: `re.split(r"(?=Summary|...)", cv_text)`.
A match at position 0 yields a leading empty piece, as in Python. -/
def pySplitLabels (s : List Char) : List (List Char) :=
  goSplit [] s

/-- A section as produced by the splitting loop of `create_docx`. -/
structure CvSection where
  heading : List Char
  body : List Char
  deriving DecidableEq, Repr

/-- `app.py` lines 52-57: per-piece processing — strip, split into lines,
skip empty pieces, first line becomes the heading, the rest the body. -/
def pieceToSection (p : List Char) : Option CvSection :=
  match splitlines (pystrip p) with
  | [] => none
  | h :: t => some ⟨pystrip h, pystrip (joinNL t)⟩

/-- The (heading, body) sequence `create_docx` derives from the raw text. -/
def docxSections (cv : List Char) : List CvSection :=
  (pySplitLabels cv).filterMap pieceToSection

/-- A block-level element of the generated word-processing document. -/
inductive DocxBlock where
  | heading (text : List Char) (level : Nat)
  | para (text : List Char) (spaceAfterPt : Nat)
  deriving DecidableEq, Repr

/-- The abstract result of `create_docx` (`app.py` lines 34-75): the bold
18-pt title run, a blank paragraph, then per-section blocks; margins are in
tenths of an inch. -/
structure DocxDoc where
  titleText : List Char
  titleBold : Bool
  titleSizePt : Nat
  blankAfterTitle : Bool
  blocks : List DocxBlock
  marginTenthsInch : Nat
  deriving DecidableEq, Repr

/-- `app.py` lines 34-75: `create_docx`. -/
def create_docx (cv_text : List Char) (target_name : List Char) : DocxDoc :=
  let clean_title := replaceChar '_' ' ' (pyTitle (pystrip target_name))
  { titleText := clean_title ++ strL " CV"
    titleBold := true
    titleSizePt := 18
    blankAfterTitle := true
    blocks :=
      (docxSections cv_text).flatMap fun sec =>
        DocxBlock.heading sec.heading 2 ::
          (splitNL sec.body).filterMap fun para =>
            if (pystrip para).isEmpty then none
            else some (DocxBlock.para (pystrip para) 6)
    marginTenthsInch := 8 }

/-- A flowable of the generated PDF story. -/
inductive PdfElem where
  | para (markup : List Char) (style : List Char)
  | spacer (w h : Nat)
  deriving DecidableEq, Repr

/-- The abstract result of `create_pdf` (`app.py` lines 77-100). -/
structure PdfDoc where
  story : List PdfElem
  deriving DecidableEq, Repr

/-- `app.py` line 90: `re.match(r"^(Summary|...)", line.strip())` — the
stripped line starts with a recognised label. -/
def pdfHeadingLine (l : List Char) : Bool :=
  isLabelAt (pystrip l)

/-- `app.py` lines 77-100: `create_pdf`. -/
def create_pdf (cv_text : List Char) (target_name : List Char) : PdfDoc :=
  let clean_title := replaceChar '_' ' ' (pyTitle (pystrip target_name))
  { story :=
      PdfElem.para (strL "<b>" ++ clean_title ++ strL " CV</b>") (strL "Title") ::
      PdfElem.spacer 1 12 ::
      (splitNL cv_text).flatMap fun line =>
        if pdfHeadingLine line then
          [PdfElem.spacer 1 12,
           PdfElem.para (strL "<b>" ++ pystrip line ++ strL "</b>") (strL "Heading2")]
        else if !(pystrip line).isEmpty then
          [PdfElem.para (pystrip line) (strL "Normal")]
        else
          [PdfElem.spacer 1 6] }

/-- The JSON payload of a `/generate` request; a missing key is `none`. -/
structure ReqData where
  old_cv : Option (List Char)
  job_desc : Option (List Char)
  target_name : Option (List Char)
  file_format : Option (List Char)

/-- Python's `x or d` on an optional string: `None` and `""` are falsy. -/
def pyOr (o : Option (List Char)) (d : List Char) : List Char :=
  match o with
  | none => d
  | some s => if s.isEmpty then d else s

/-- The rendered artifact chosen by the format branch. -/
inductive Rendered where
  | docx (doc : DocxDoc)
  | pdf (doc : PdfDoc)
  deriving DecidableEq, Repr

/-- The outcome of `generate_cv`: the 400 "missing fields" response, or a file
response (filename, MIME type, rendered document). -/
inductive GenResult where
  | invalid (msg : List Char)
  | file (filename : List Char) (mimetype : List Char) (rendered : Rendered)
  deriving DecidableEq, Repr

/-- The fixed prompt text before the interpolated job description
(`app.py` lines 124-155). -/
def promptPrefix : List Char :=
  strL "\nYou are a highly skilled resume writer specializing in Applicant Tracking System (ATS) optimization and crafting compelling narratives for mid-career to executive-level professionals. \nYour task is to rewrite the provided CV to not only align with the given job description but also to significantly improve its impact and persuasiveness for a human reader. \nPrioritize clarity, quantifiable achievements expressed with powerful action verbs, and the strategic integration of relevant keywords to ensure the CV is both ATS-friendly and compelling.\n\nThe output should strictly adhere to the following structure, using either Tahoma, Arial, or Times New Roman font (though ultimately, plain text will be output): \n============================\nFULL NAME\nLOCATION | CONTACT INFO | EMAIL | LINKEDIN\n\nSummary\n[Concise 2-3 line summary designed to hook the reader, highlighting key strengths most relevant to the job.]\n\nKey Skills\n- [List 8-12 carefully chosen key skills with relevant keywords and measurable context.]\n\nProfessional Experience\n[Company Name], [Job Title] | [Dates of Employment]\n- [3-5 bullet points quantifying results and achievements using the STAR method.]\n\nEducation\n[Degree], [Institution], [Graduation Year (or GPA if above 3.5)]\n\nCertifications\n[List relevant certifications]\n\nAdditional Information (Optional)\n[Languages, Awards, Publications, or Tools directly relevant to the job.]\n============================\n\nINPUT:\nJOB DESCRIPTION: "

/-- The fixed prompt text between the job description and the CV. -/
def promptMid : List Char := strL "\nCURRENT CV: "

/-- The fixed prompt text after the interpolated CV (`app.py` lines 156-161). -/
def promptSuffix : List Char :=
  strL "\n\nOUTPUT:\nProvide only the rewritten CV in plain text - no markdown, explanations, or filler text. \nFocus on precision, clarity, and measurable results.\n"

/-- The request validation of `app.py` line 118: all three text fields must be
non-empty after trimming. -/
def validationPasses (d : ReqData) : Bool :=
  !(pystrip (d.old_cv.getD [])).isEmpty &&
  !(pystrip (d.job_desc.getD [])).isEmpty &&
  !(pystrip (pyOr d.target_name [])).isEmpty

/-- `app.py` lines 110-185: the `/generate` handler.  The external
text-generation service is abstracted as the function `llm` from the prompt
to the returned message content.  The second component records whether the
external call was made: the validation check precedes it, so an invalid
request performs no call. -/
def generate_cv (d : ReqData) (llm : List Char → List Char) :
    GenResult × Bool :=
  let old_cv := pystrip (d.old_cv.getD [])
  let job_desc := pystrip (d.job_desc.getD [])
  let target_name := pystrip (pyOr d.target_name [])
  let file_format := pyLower (pyOr d.file_format (strL "docx"))
  if old_cv.isEmpty || job_desc.isEmpty || target_name.isEmpty then
    (GenResult.invalid
      (strL "Missing one or more fields: old_cv, job_desc, or target_name"), false)
  else
    let prompt := promptPrefix ++ job_desc ++ promptMid ++ old_cv ++ promptSuffix
    let updated_cv := clean_ai_output (pystrip (llm prompt))
    let clean_name := pyTitle (pystrip target_name)
    let filename := replaceChar ' ' '_' clean_name ++ '.' :: file_format
    if file_format = strL "pdf" then
      (GenResult.file filename (strL "application/pdf")
        (Rendered.pdf (create_pdf updated_cv clean_name)), true)
    else
      (GenResult.file filename
        (strL "application/vnd.openxmlformats-officedocument.wordprocessingml.document")
        (Rendered.docx (create_docx updated_cv clean_name)), true)

/-- Is the result the 400 "missing fields" response? -/
def isInvalidRes : GenResult → Bool
  | GenResult.invalid _ => true
  | GenResult.file _ _ _ => false

/-- The `download_name` of a file result (`[]` for an error response). -/
def resFilename : GenResult → List Char
  | GenResult.invalid _ => []
  | GenResult.file fn _ _ => fn

/-- The MIME type of a file result (`[]` for an error response). -/
def resMime : GenResult → List Char
  | GenResult.invalid _ => []
  | GenResult.file _ m _ => m

/-- Was the PDF renderer used? -/
def resIsPdf : GenResult → Bool
  | GenResult.file _ _ (Rendered.pdf _) => true
  | _ => false

/-- Was the DOCX renderer used? -/
def resIsDocx : GenResult → Bool
  | GenResult.file _ _ (Rendered.docx _) => true
  | _ => false

/-- The title text displayed inside the rendered document: the docx title run
text, or the markup of the first story paragraph of the PDF. -/
def resTitleDisplay : GenResult → List Char
  | GenResult.file _ _ (Rendered.docx doc) => doc.titleText
  | GenResult.file _ _ (Rendered.pdf doc) =>
    match doc.story with
    | PdfElem.para m _ :: _ => m
    | _ => []
  | GenResult.invalid _ => []

/-- The filename stem the handler builds from the target name
(`app.py` lines 173-174). -/
def stemOf (d : ReqData) : List Char :=
  replaceChar ' ' '_' (pyTitle (pystrip (pystrip (pyOr d.target_name []))))

/-- A fixed stand-in for the external text-generation service, used by the
concrete witnesses. -/
def llm0 : List Char → List Char := fun _ => strL "Summary\nAchieved X."

/-- The effective format string the handler branches on:
`(data.get("file_format") or "docx").lower()`. -/
def effFormat (d : ReqData) : List Char :=
  pyLower (pyOr d.file_format (strL "docx"))

/-- The `clean_name` the handler passes to the renderers
(`app.py` line 173). -/
def cleanNameOf (d : ReqData) : List Char :=
  pyTitle (pystrip (pystrip (pyOr d.target_name [])))

/-- The cut positions of a piece list: the boundaries at which `re.split`
separated adjacent pieces, as offsets into the reassembled text. -/
def cutsOf : List (List Char) → List Nat
  | [] => []
  | [_] => []
  | p :: ps => p.length :: (cutsOf ps).map (· + p.length)

/-- All positions of `s` at which some recognised label starts, in
increasing order. -/
def labelIdxs : List Char → List Nat
  | [] => []
  | c :: rest =>
    (if isLabelAt (c :: rest) then [0] else []) ++ (labelIdxs rest).map (· + 1)

/-- The position of the first occurrence of a recognised label in `s`
(`s.length` when no label occurs anywhere), so `s.take (firstLabelIdx s)`
is the text before the first label match of the splitter. -/
def firstLabelIdx : List Char → Nat
  | [] => 0
  | c :: rest => if isLabelAt (c :: rest) then 0 else firstLabelIdx rest + 1

/-- Modelled from the spec's anchored-match wording (§4.1): a label
occurrence at position `i` of `s` counts as a heading only if every
character between the enclosing line's start and `i` is whitespace, and the
label is followed only by whitespace or a colon before the end of the
line.  (This is the spec's tightened rule, stated for comparison with the
source's unanchored lookahead.) -/
def specAnchoredLabelAt (s : List Char) (i : Nat) : Bool :=
  ((s.take i).reverse.takeWhile (fun c => c ≠ '\n')).all isPySpace &&
  labelsL.any fun l =>
    l.isPrefixOf (s.drop i) &&
    ((s.drop (i + l.length)).takeWhile (fun c => c ≠ '\n')).all
      (fun c => isPySpace c || c = ':')

/-- Strip all whitespace characters; two texts are equal "up to whitespace
normalization" when their `removeWs` images coincide. -/
def removeWs (l : List Char) : List Char :=
  l.filter fun c => !isPySpace c

/-- The text content retained by the splitter: all headings and bodies,
concatenated in order. -/
def splitterText (cv : List Char) : List Char :=
  (docxSections cv).flatMap fun sec => sec.heading ++ sec.body

/-- `s` contains `lbl` as a full line: an occurrence delimited by a line
break (or the text boundary) on both sides. -/
def ContainsHeadingLine (lbl s : List Char) : Prop :=
  ∃ pre post, s = pre ++ lbl ++ post ∧
    (pre = [] ∨ pre.getLast? = some '\n') ∧
    (post = [] ∨ post.head? = some '\n')

/-! ## Basic lemmas about the handler -/

theorem ciStartsWith_length {pat s : List Char} (h : ciStartsWith pat s = true) :
    pat.length ≤ s.length := by
  induction pat generalizing s with
  | nil => simp
  | cons p ps ih =>
    cases s with
    | nil => simp [ciStartsWith] at h
    | cons c cs =>
      simp only [ciStartsWith, Bool.and_eq_true] at h
      simpa using Nat.succ_le_succ (ih h.2)

theorem wsLen_le {s : List Char} : wsLen s ≤ s.length - 8 := by
  have := (List.takeWhile_sublist (l := s.drop 8) (p := isPySpace)).length_le
  simpa [wsLen] using this

theorem matchTailored_bounds {s : List Char} {n : Nat}
    (h : matchTailored s = some n) : 0 < n ∧ n ≤ s.length := by
  unfold matchTailored at h
  split at h
  · rename_i h8
    split at h
    · rename_i hcv
      have hlen2 := ciStartsWith_length hcv
      simp only [Option.some.injEq] at h
      subst h
      have hw := wsLen_le (s := s)
      simp only [afterWs, strL, List.length_drop] at hlen2
      simp [strL] at hlen2
      constructor
      · omega
      · omega
    · split at h
      · rename_i hres
        have hlen6 := ciStartsWith_length hres
        simp only [Option.some.injEq] at h
        subst h
        have hw := wsLen_le (s := s)
        simp only [afterWs, strL, List.length_drop] at hlen6
        simp [strL] at hlen6
        constructor
        · omega
        · omega
      · exact absurd h (by simp)
  · exact absurd h (by simp)

theorem sub1Fuel_nil : ∀ f, sub1Fuel f [] = [] := by
  intro f
  cases f <;> rfl

theorem sub1Fuel_congr :
    ∀ f g s, s.length ≤ f → s.length ≤ g → sub1Fuel f s = sub1Fuel g s := by
  intro f
  induction f with
  | zero =>
    intro g s hf _
    have hs : s = [] := List.length_eq_zero.mp (Nat.le_zero.mp hf)
    subst hs
    simp [sub1Fuel_nil]
  | succ f ih =>
    intro g s hf hg
    cases s with
    | nil => rw [sub1Fuel_nil, sub1Fuel_nil]
    | cons c cs =>
      cases g with
      | zero => simp at hg
      | succ g2 =>
        simp only [sub1Fuel]
        cases hm : matchTailored (c :: cs) with
        | some n =>
          have hb := matchTailored_bounds hm
          simp only [List.length_cons] at hf hg hb
          show sub1Fuel f ((c :: cs).drop n) = sub1Fuel g2 ((c :: cs).drop n)
          apply ih
          · simp only [List.length_drop, List.length_cons]
            omega
          · simp only [List.length_drop, List.length_cons]
            omega
        | none =>
          simp only [List.length_cons] at hf hg
          show c :: sub1Fuel f cs = c :: sub1Fuel g2 cs
          congr 1
          apply ih <;> omega

theorem sub1_eq (s : List Char) :
    sub1 s =
      (match matchTailored s with
       | some n => sub1 (s.drop n)
       | none =>
         match s with
         | [] => []
         | c :: cs => c :: sub1 cs) := by
  cases s with
  | nil => rfl
  | cons c cs =>
    show sub1Fuel (c :: cs).length (c :: cs) = _
    simp only [List.length_cons, sub1Fuel]
    cases hm : matchTailored (c :: cs) with
    | some n =>
      have hb := matchTailored_bounds hm
      simp only [List.length_cons] at hb
      apply sub1Fuel_congr
      · simp only [List.length_drop, List.length_cons]
        omega
      · exact Nat.le_refl _
    | none =>
      rfl

theorem sub1_nil : sub1 [] = [] := rfl

theorem sub1_match {s : List Char} {n : Nat} (h : matchTailored s = some n) :
    sub1 s = sub1 (s.drop n) := by
  rw [sub1_eq, h]

theorem sub1_cons {c : Char} {cs : List Char}
    (h : matchTailored (c :: cs) = none) : sub1 (c :: cs) = c :: sub1 cs := by
  rw [sub1_eq, h]

theorem sub2Fuel_nil : ∀ f, sub2Fuel f [] = [] := by
  intro f
  cases f <;> rfl

theorem sub2Fuel_congr :
    ∀ f g s, s.length ≤ f → s.length ≤ g → sub2Fuel f s = sub2Fuel g s := by
  intro f
  induction f with
  | zero =>
    intro g s hf _
    have hs : s = [] := List.length_eq_zero.mp (Nat.le_zero.mp hf)
    subst hs
    rw [sub2Fuel_nil, sub2Fuel_nil]
  | succ f ih =>
    intro g s hf hg
    cases s with
    | nil => rw [sub2Fuel_nil, sub2Fuel_nil]
    | cons c cs =>
      cases g with
      | zero => simp at hg
      | succ g2 =>
        simp only [sub2Fuel]
        simp only [List.length_cons] at hf hg
        have hdw : (cs.dropWhile isSep).length ≤ cs.length :=
          (List.dropWhile_suffix isSep).length_le
        by_cases h1 : isSep c
        · rw [if_pos h1, if_pos h1]
          by_cases h2 : cs.head?.any isSep
          · rw [if_pos h2, if_pos h2]
            apply ih <;> omega
          · rw [if_neg h2, if_neg h2]
            congr 1
            apply ih <;> omega
        · rw [if_neg h1, if_neg h1]
          congr 1
          apply ih <;> omega

theorem sub2_eq (s : List Char) :
    sub2 s =
      (match s with
       | [] => []
       | c :: cs =>
         if isSep c then
           if cs.head?.any isSep then sub2 (cs.dropWhile isSep)
           else c :: sub2 cs
         else c :: sub2 cs) := by
  cases s with
  | nil => rfl
  | cons c cs =>
    show sub2Fuel (c :: cs).length (c :: cs) = _
    simp only [List.length_cons, sub2Fuel]
    have hdw : (cs.dropWhile isSep).length ≤ cs.length :=
      (List.dropWhile_suffix isSep).length_le
    by_cases h1 : isSep c
    · rw [if_pos h1, if_pos h1]
      by_cases h2 : cs.head?.any isSep
      · rw [if_pos h2, if_pos h2]
        apply sub2Fuel_congr <;> omega
      · rw [if_neg h2, if_neg h2]
        rfl
    · rw [if_neg h1, if_neg h1]
      rfl

theorem sub2_nil : sub2 [] = [] := rfl

theorem sub2_run {c : Char} {cs : List Char} (h1 : isSep c = true)
    (h2 : cs.head?.any isSep = true) :
    sub2 (c :: cs) = sub2 (cs.dropWhile isSep) := by
  rw [sub2_eq]
  simp only [h1, h2, if_true]

theorem sub2_keep {c : Char} {cs : List Char}
    (h : isSep c = false ∨ cs.head?.any isSep = false) :
    sub2 (c :: cs) = c :: sub2 cs := by
  rw [sub2_eq]
  rcases h with h | h
  · simp only [h, Bool.false_eq_true, if_false]
  · by_cases h1 : isSep c
    · simp only [h1, if_true, h, Bool.false_eq_true, if_false]
    · have h1f : isSep c = false := by simpa using h1
      simp only [h1f, Bool.false_eq_true, if_false]


/-- Unfolding of `generate_cv` in terms of the named helper definitions. -/
theorem generate_cv_eq (d : ReqData) (llm : List Char → List Char) :
    generate_cv d llm =
      if ((pystrip (d.old_cv.getD [])).isEmpty || (pystrip (d.job_desc.getD [])).isEmpty
          || (pystrip (pyOr d.target_name [])).isEmpty) then
        (GenResult.invalid
          (strL "Missing one or more fields: old_cv, job_desc, or target_name"), false)
      else if effFormat d = strL "pdf" then
        (GenResult.file (stemOf d ++ '.' :: effFormat d) (strL "application/pdf")
          (Rendered.pdf (create_pdf
            (clean_ai_output (pystrip (llm (promptPrefix ++ pystrip (d.job_desc.getD [])
              ++ promptMid ++ pystrip (d.old_cv.getD []) ++ promptSuffix))))
            (cleanNameOf d))), true)
      else
        (GenResult.file (stemOf d ++ '.' :: effFormat d)
          (strL "application/vnd.openxmlformats-officedocument.wordprocessingml.document")
          (Rendered.docx (create_docx
            (clean_ai_output (pystrip (llm (promptPrefix ++ pystrip (d.job_desc.getD [])
              ++ promptMid ++ pystrip (d.old_cv.getD []) ++ promptSuffix))))
            (cleanNameOf d))), true) := rfl

theorem validation_cond {d : ReqData} (hv : validationPasses d = true) :
    ((pystrip (d.old_cv.getD [])).isEmpty || (pystrip (d.job_desc.getD [])).isEmpty
      || (pystrip (pyOr d.target_name [])).isEmpty) = false := by
  unfold validationPasses at hv
  simp only [Bool.and_eq_true, Bool.not_eq_true'] at hv
  simp [hv.1.1, hv.1.2, hv.2]

/-! ## C7, C8: validation and the external call -/

/-- C8 counterexample: a request whose resume text and job description are
both non-empty after trimming is still rejected (because the target name is
empty), refuting the claimed "if and only if" characterisation of
`InvalidInput` in terms of the resume and job-description fields alone. -/
theorem C8_counterexample :
    isInvalidRes ((generate_cv
        ⟨some (strL "my cv"), some (strL "the job"), some [], none⟩ llm0).1) = true ∧
    pystrip (strL "my cv") ≠ [] ∧ pystrip (strL "the job") ≠ [] := by
  decide

/-- The invalid-result flag of `generate_cv`, as a Boolean equation. -/
theorem isInvalid_generate_eq (d : ReqData) (llm : List Char → List Char) :
    isInvalidRes ((generate_cv d llm).1) =
      ((pystrip (d.old_cv.getD [])).isEmpty || (pystrip (d.job_desc.getD [])).isEmpty
        || (pystrip (pyOr d.target_name [])).isEmpty) := by
  rw [generate_cv_eq]
  split
  · rename_i hcond
    simp [isInvalidRes, hcond]
  · rename_i hcond
    have hf : ((pystrip (d.old_cv.getD [])).isEmpty
        || (pystrip (d.job_desc.getD [])).isEmpty
        || (pystrip (pyOr d.target_name [])).isEmpty) = false := by
      simpa using hcond
    rw [hf]
    split <;> simp [isInvalidRes]

theorem called_generate_eq (d : ReqData) (llm : List Char → List Char) :
    (generate_cv d llm).2 = validationPasses d := by
  rw [generate_cv_eq]
  unfold validationPasses
  split
  · rename_i hcond
    simp only [Bool.or_eq_true] at hcond
    rcases hcond with (h | h) | h <;> simp [h]
  · rename_i hcond
    have hf : ((pystrip (d.old_cv.getD [])).isEmpty
        || (pystrip (d.job_desc.getD [])).isEmpty
        || (pystrip (pyOr d.target_name [])).isEmpty) = false := by
      simpa using hcond
    simp only [Bool.or_eq_false_iff] at hf
    rw [hf.1.1, hf.1.2, hf.2]
    split <;> rfl

/-- C8 (amended): `generate_cv` returns the invalid-input error if and only
if the trimmed resume text, the trimmed job-description text, **or** the
trimmed target name is empty; and the external text-generation call is made
exactly when validation passes (in particular, no call is made on invalid
input, since the check precedes the call). -/
theorem C8_invalid_iff (d : ReqData) (llm : List Char → List Char) :
    (isInvalidRes ((generate_cv d llm).1) = true ↔
      (pystrip (d.old_cv.getD []) = [] ∨ pystrip (d.job_desc.getD []) = [] ∨
        pystrip (pyOr d.target_name []) = [])) ∧
    (generate_cv d llm).2 = validationPasses d := by
  refine ⟨?_, called_generate_eq d llm⟩
  rw [isInvalid_generate_eq]
  simp [List.isEmpty_iff, or_assoc]

/-- C7 counterexample: a request with non-empty resume and job-description
text but no target name is rejected with the missing-fields error, not
served by deriving a title from the job description. -/
theorem C7_counterexample :
    isInvalidRes ((generate_cv
        ⟨some (strL "my resume text"),
         some (strL "Hiring for Senior Backend Engineer"), none, none⟩ llm0).1)
      = true ∧
    pystrip (strL "my resume text") ≠ [] ∧
    pystrip (strL "Hiring for Senior Backend Engineer") ≠ [] := by
  decide

/-- C7 (amended): the target name is **required**: whenever it is absent (or
empty after trimming), `generate_cv` fails with the missing-fields error and
makes no external call; no fallback extraction from the job description
exists in the code. -/
theorem C7_target_required (d : ReqData) (llm : List Char → List Char)
    (h : pystrip (pyOr d.target_name []) = []) :
    (generate_cv d llm).1 = GenResult.invalid
      (strL "Missing one or more fields: old_cv, job_desc, or target_name") ∧
    (generate_cv d llm).2 = false := by
  rw [generate_cv_eq]
  simp [h]

/-- Witness for `C7_target_required` at a concrete request. -/
theorem C7_target_required_witness :
    pystrip (pyOr (none : Option (List Char)) []) = [] ∧
    (generate_cv ⟨some (strL "a"), some (strL "b"), none, none⟩ llm0).1 =
      GenResult.invalid
        (strL "Missing one or more fields: old_cv, job_desc, or target_name") ∧
    (generate_cv ⟨some (strL "a"), some (strL "b"), none, none⟩ llm0).2 = false :=
  ⟨by decide,
   (C7_target_required ⟨some (strL "a"), some (strL "b"), none, none⟩ llm0
     (by decide)).1,
   (C7_target_required ⟨some (strL "a"), some (strL "b"), none, none⟩ llm0
     (by decide)).2⟩

/-! ## C6, C10: format dispatch, MIME type and filename extension -/

/-- C6 counterexample: with `file_format = "txt"` the handler renders a docx
byte stream with the docx MIME type, but the filename is `Name.txt` — its
extension is the supplied string, not `.docx`, refuting "a filename ...
whose extension matches the format actually rendered". -/
theorem C6_counterexample :
    resIsDocx ((generate_cv
        ⟨some (strL "a"), some (strL "b"), some (strL "Name"),
         some (strL "txt")⟩ llm0).1) = true ∧
    resMime ((generate_cv
        ⟨some (strL "a"), some (strL "b"), some (strL "Name"),
         some (strL "txt")⟩ llm0).1) =
      strL "application/vnd.openxmlformats-officedocument.wordprocessingml.document" ∧
    resFilename ((generate_cv
        ⟨some (strL "a"), some (strL "b"), some (strL "Name"),
         some (strL "txt")⟩ llm0).1) = strL "Name.txt" ∧
    (strL ".docx").isSuffixOf (strL "Name.txt") = false := by
  decide

/-- C6 (amended): for every valid request whose effective format string
(`(file_format or "docx").lower()`) differs from `"pdf"` — in particular
for an absent `file_format` and for any unrecognized value — the handler
renders docx bytes with the docx MIME type; the filename is the normalized
stem followed by a dot and the effective format string itself (so the
extension is `.docx` only when the field was absent, empty, or `"docx"`). -/
theorem C6_default_docx (d : ReqData) (llm : List Char → List Char)
    (hv : validationPasses d = true) (hf : effFormat d ≠ strL "pdf") :
    resIsDocx ((generate_cv d llm).1) = true ∧
    resMime ((generate_cv d llm).1) =
      strL "application/vnd.openxmlformats-officedocument.wordprocessingml.document" ∧
    resFilename ((generate_cv d llm).1) = stemOf d ++ '.' :: effFormat d := by
  rw [generate_cv_eq, validation_cond hv]
  rw [if_neg (by simp), if_neg hf]
  exact ⟨rfl, rfl, rfl⟩

/-- Witness for `C6_default_docx`: a concrete request with no `file_format`
field is rendered as docx with filename `Name.docx`. -/
theorem C6_default_docx_witness :
    validationPasses ⟨some (strL "a"), some (strL "b"), some (strL "Name"), none⟩
        = true ∧
    effFormat ⟨some (strL "a"), some (strL "b"), some (strL "Name"), none⟩
        ≠ strL "pdf" ∧
    (resIsDocx ((generate_cv
        ⟨some (strL "a"), some (strL "b"), some (strL "Name"), none⟩ llm0).1) = true ∧
     resMime ((generate_cv
        ⟨some (strL "a"), some (strL "b"), some (strL "Name"), none⟩ llm0).1) =
       strL "application/vnd.openxmlformats-officedocument.wordprocessingml.document" ∧
     resFilename ((generate_cv
        ⟨some (strL "a"), some (strL "b"), some (strL "Name"), none⟩ llm0).1) =
       stemOf ⟨some (strL "a"), some (strL "b"), some (strL "Name"), none⟩ ++
         '.' :: effFormat ⟨some (strL "a"), some (strL "b"), some (strL "Name"), none⟩) :=
  ⟨by decide, by decide,
   C6_default_docx ⟨some (strL "a"), some (strL "b"), some (strL "Name"), none⟩
     llm0 (by decide) (by decide)⟩

/-- C10 (confirmed): the handler lowercases the supplied `file_format` before
branching: for a valid request carrying a non-empty `file_format` string,
the filename extension is exactly the lowercased string, and whenever the
lowercased string is `"pdf"` (so for `"PDF"`, `"Pdf"`, ...) the result is a
PDF rendering with MIME type `application/pdf`. -/
theorem C10_lowercase_format (d : ReqData) (llm : List Char → List Char)
    (s : List Char) (hv : validationPasses d = true)
    (hf : d.file_format = some s) (hs : s.isEmpty = false) :
    resFilename ((generate_cv d llm).1) = stemOf d ++ '.' :: pyLower s ∧
    (pyLower s = strL "pdf" →
      resIsPdf ((generate_cv d llm).1) = true ∧
      resMime ((generate_cv d llm).1) = strL "application/pdf") := by
  have heff : effFormat d = pyLower s := by
    simp [effFormat, pyOr, hf, hs]
  rw [generate_cv_eq, validation_cond hv, if_neg (by simp)]
  by_cases hp : effFormat d = strL "pdf"
  · rw [if_pos hp, ← heff, hp]
    refine ⟨rfl, fun _ => ⟨rfl, rfl⟩⟩
  · rw [if_neg hp, ← heff]
    refine ⟨rfl, fun hps => absurd hps hp⟩

/-- Witness for `C10_lowercase_format`: `file_format = "PDF"` yields
`John_Smith.pdf` with the PDF MIME type. -/
theorem C10_lowercase_format_witness :
    validationPasses
        ⟨some (strL "a"), some (strL "b"), some (strL "John Smith"),
         some (strL "PDF")⟩ = true ∧
    (strL "PDF").isEmpty = false ∧
    pyLower (strL "PDF") = strL "pdf" ∧
    resFilename ((generate_cv
        ⟨some (strL "a"), some (strL "b"), some (strL "John Smith"),
         some (strL "PDF")⟩ llm0).1) = strL "John_Smith.pdf" ∧
    resIsPdf ((generate_cv
        ⟨some (strL "a"), some (strL "b"), some (strL "John Smith"),
         some (strL "PDF")⟩ llm0).1) = true ∧
    resMime ((generate_cv
        ⟨some (strL "a"), some (strL "b"), some (strL "John Smith"),
         some (strL "PDF")⟩ llm0).1) = strL "application/pdf" := by
  refine ⟨by decide, by decide, by decide, ?_, ?_, ?_⟩
  · have h := (C10_lowercase_format
      ⟨some (strL "a"), some (strL "b"), some (strL "John Smith"), some (strL "PDF")⟩
      llm0 (strL "PDF") (by decide) rfl (by decide)).1
    rw [h]; decide
  · exact ((C10_lowercase_format
      ⟨some (strL "a"), some (strL "b"), some (strL "John Smith"), some (strL "PDF")⟩
      llm0 (strL "PDF") (by decide) rfl (by decide)).2 (by decide)).1
  · exact ((C10_lowercase_format
      ⟨some (strL "a"), some (strL "b"), some (strL "John Smith"), some (strL "PDF")⟩
      llm0 (strL "PDF") (by decide) rfl (by decide)).2 (by decide)).2

/-! ## C9: the displayed document title vs. the filename stem -/

theorem cased_mem {c : Char} (h : isCasedChar c = true) : c ∈ casedChars := by
  simpa [isCasedChar, List.contains_iff_exists_mem_beq, beq_iff_eq] using h

theorem cased_toUpper_cased : ∀ c ∈ casedChars, isCasedChar c.toUpper = true := by
  decide

theorem cased_toLower_cased : ∀ c ∈ casedChars, isCasedChar c.toLower = true := by
  decide

theorem cased_upper_idem : ∀ c ∈ casedChars, c.toUpper.toUpper = c.toUpper := by
  decide

theorem cased_lower_idem : ∀ c ∈ casedChars, c.toLower.toLower = c.toLower := by
  decide

theorem cased_no_space : ∀ c ∈ casedChars, isPySpace c = false := by
  decide

theorem cased_upper_no_space : ∀ c ∈ casedChars, isPySpace c.toUpper = false := by
  decide

theorem cased_lower_no_space : ∀ c ∈ casedChars, isPySpace c.toLower = false := by
  decide

theorem pyTitleGo_length (b : Bool) (l : List Char) :
    (pyTitleGo b l).length = l.length := by
  induction l generalizing b with
  | nil => rfl
  | cons c rest ih =>
    by_cases hc : isCasedChar c <;> simp [pyTitleGo, hc, ih]

theorem pyTitleGo_isEmpty (b : Bool) (l : List Char) :
    (pyTitleGo b l).isEmpty = l.isEmpty := by
  cases l with
  | nil => rfl
  | cons c rest => by_cases hc : isCasedChar c <;> simp [pyTitleGo, hc]

theorem pyTitleGo_idem (l : List Char) :
    ∀ b, pyTitleGo b (pyTitleGo b l) = pyTitleGo b l := by
  induction l with
  | nil => intro b; rfl
  | cons c rest ih =>
    intro b
    by_cases hc : isCasedChar c
    · have hm := cased_mem hc
      cases b
      · simp [pyTitleGo, hc, cased_toUpper_cased c hm, cased_upper_idem c hm,
          ih true]
      · simp [pyTitleGo, hc, cased_toLower_cased c hm, cased_lower_idem c hm,
          ih true]
    · simp [pyTitleGo, hc, ih false]

theorem dropWhile_pyTitleGo (l : List Char) :
    (pyTitleGo false l).dropWhile isPySpace =
      pyTitleGo false (l.dropWhile isPySpace) := by
  induction l with
  | nil => rfl
  | cons c rest ih =>
    by_cases hc : isCasedChar c
    · have hm := cased_mem hc
      simp [pyTitleGo, hc, List.dropWhile_cons, cased_no_space c hm,
        cased_upper_no_space c hm]
    · by_cases hs : isPySpace c
      · simp [pyTitleGo, hc, List.dropWhile_cons, hs, ih]
      · simp [pyTitleGo, hc, List.dropWhile_cons, hs]

theorem dropTrail_append (a b : List Char) :
    dropTrail (a ++ b) =
      if dropTrail b = [] then dropTrail a else a ++ dropTrail b := by
  induction a with
  | nil =>
    by_cases hb : dropTrail b = [] <;> simp [hb, dropTrail]
  | cons c a2 ih =>
    by_cases hb : dropTrail b = []
    · simp only [hb, if_true, List.cons_append]
      simp only [dropTrail, ih, hb, if_true]
    · simp only [hb, if_false, List.cons_append]
      simp only [dropTrail, ih, hb, if_false]
      have hne : (a2 ++ dropTrail b).isEmpty = false := by
        cases h2 : a2 ++ dropTrail b
        · exact absurd (List.append_eq_nil.mp h2).2 hb
        · rfl
      simp [hne]

theorem dropTrail_pre (l : List Char) : dropTrail l <+: l := by
  induction l with
  | nil => simp [dropTrail]
  | cons c rest ih =>
    simp only [dropTrail]
    split
    · exact List.nil_prefix
    · exact List.cons_prefix_cons.mpr ⟨rfl, ih⟩

theorem dropTrail_idem (l : List Char) : dropTrail (dropTrail l) = dropTrail l := by
  induction l with
  | nil => rfl
  | cons c rest ih =>
    simp only [dropTrail]
    split
    · rfl
    · rename_i h
      simp only [dropTrail, ih]
      rw [if_neg h]

theorem dropTrail_pyTitleGo (l : List Char) :
    ∀ b, dropTrail (pyTitleGo b l) = pyTitleGo b (dropTrail l) := by
  induction l with
  | nil => intro b; rfl
  | cons c rest ih =>
    intro b
    by_cases hc : isCasedChar c
    · have hm := cased_mem hc
      have hsp : isPySpace (if b = true then c.toLower else c.toUpper) = false := by
        cases b
        · simpa using cased_upper_no_space c hm
        · simpa using cased_lower_no_space c hm
      simp only [pyTitleGo, hc, if_true, dropTrail, ih true,
        pyTitleGo_isEmpty, hsp, Bool.and_false, if_false]
      rw [if_neg (show ¬(((dropTrail rest).isEmpty && isPySpace c) = true) by
        simp [cased_no_space c hm])]
      simp [pyTitleGo, hc]
    · simp only [pyTitleGo, hc, if_false, dropTrail, ih false, pyTitleGo_isEmpty]
      split
      · rfl
      · simp [pyTitleGo, hc]

theorem pystrip_pyTitle (l : List Char) :
    pystrip (pyTitle l) = pyTitle (pystrip l) := by
  unfold pystrip pyTitle
  rw [dropWhile_pyTitleGo, dropTrail_pyTitleGo]

theorem dropWhile_dropTrail_dropWhile (l : List Char) :
    (dropTrail (l.dropWhile isPySpace)).dropWhile isPySpace =
      dropTrail (l.dropWhile isPySpace) := by
  cases h : dropTrail (l.dropWhile isPySpace) with
  | nil => rfl
  | cons d ds =>
    have hpre := dropTrail_pre (l.dropWhile isPySpace)
    rw [h] at hpre
    obtain ⟨t, ht⟩ := hpre
    have hd : (l.dropWhile isPySpace).head? = some d := by
      rw [← ht]; rfl
    have hnot := List.head?_dropWhile_not isPySpace l
    rw [hd] at hnot
    simp only [List.dropWhile_cons, hnot]
    rw [if_neg (by simp)]

theorem pystrip_idem (l : List Char) : pystrip (pystrip l) = pystrip l := by
  unfold pystrip
  rw [dropWhile_dropTrail_dropWhile, dropTrail_idem]

theorem pyTitle_idem (l : List Char) : pyTitle (pyTitle l) = pyTitle l :=
  pyTitleGo_idem l false

theorem replace_us_fuse (l : List Char) :
    replaceChar '_' ' ' (replaceChar ' ' '_' l) = replaceChar '_' ' ' l := by
  induction l with
  | nil => rfl
  | cons c rest ih =>
    have hh : (if (if c = ' ' then '_' else c) = '_' then ' '
          else (if c = ' ' then '_' else c)) = (if c = '_' then ' ' else c) := by
      by_cases h1 : c = ' ' <;> by_cases h2 : c = '_' <;> simp [h1, h2]
    show (if (if c = ' ' then '_' else c) = '_' then ' '
        else (if c = ' ' then '_' else c)) ::
          replaceChar '_' ' ' (replaceChar ' ' '_' rest) =
        (if c = '_' then ' ' else c) :: replaceChar '_' ' ' rest
    rw [hh, ih]

theorem title_of_cleanName (d : ReqData) :
    pyTitle (pystrip (cleanNameOf d)) = cleanNameOf d := by
  unfold cleanNameOf
  rw [pystrip_pyTitle, pystrip_idem, pyTitle_idem]

/-- C9 counterexample: for target name `"John Doe"` the docx renderer's bold
title run is `"John Doe CV"`, not the bare normalized name `"John Doe"` —
the renderers append the word `" CV"` to the display title. -/
theorem C9_counterexample :
    (create_docx (strL "Summary\nX") (strL "John Doe")).titleText =
      strL "John Doe CV" ∧
    strL "John Doe CV" ≠ strL "John Doe" := by
  constructor
  · rfl
  · decide

/-- C9 (amended): for every valid request, the title displayed inside the
rendered document (bold docx title run, or the bold markup paragraph of the
PDF) equals the filename stem with underscores restored to spaces, followed
by the fixed suffix `" CV"` (wrapped in `<b>...</b>` markup for the PDF). -/
theorem C9_display_title (d : ReqData) (llm : List Char → List Char)
    (hv : validationPasses d = true) :
    resTitleDisplay ((generate_cv d llm).1) =
      (if effFormat d = strL "pdf" then
        strL "<b>" ++ (replaceChar '_' ' ' (stemOf d) ++ strL " CV</b>")
      else replaceChar '_' ' ' (stemOf d) ++ strL " CV") := by
  have hstem : replaceChar '_' ' ' (stemOf d) = replaceChar '_' ' ' (cleanNameOf d) := by
    unfold stemOf cleanNameOf
    exact replace_us_fuse _
  rw [generate_cv_eq, validation_cond hv, if_neg (by simp)]
  by_cases hp : effFormat d = strL "pdf"
  · rw [if_pos hp, if_pos hp]
    show strL "<b>" ++
        replaceChar '_' ' ' (pyTitle (pystrip (cleanNameOf d))) ++ strL " CV</b>" =
      strL "<b>" ++ (replaceChar '_' ' ' (stemOf d) ++ strL " CV</b>")
    rw [title_of_cleanName, hstem, List.append_assoc]
  · rw [if_neg hp, if_neg hp]
    show replaceChar '_' ' ' (pyTitle (pystrip (cleanNameOf d))) ++ strL " CV" =
      replaceChar '_' ' ' (stemOf d) ++ strL " CV"
    rw [title_of_cleanName, hstem]

/-- Witness for `C9_display_title` at a concrete request. -/
theorem C9_display_title_witness :
    validationPasses
        ⟨some (strL "a"), some (strL "b"), some (strL "John_Doe x"), none⟩ = true ∧
    resTitleDisplay ((generate_cv
        ⟨some (strL "a"), some (strL "b"), some (strL "John_Doe x"), none⟩
        llm0).1) =
      (if effFormat ⟨some (strL "a"), some (strL "b"), some (strL "John_Doe x"), none⟩
          = strL "pdf" then
        strL "<b>" ++ (replaceChar '_' ' '
          (stemOf ⟨some (strL "a"), some (strL "b"), some (strL "John_Doe x"), none⟩)
          ++ strL " CV</b>")
      else replaceChar '_' ' '
          (stemOf ⟨some (strL "a"), some (strL "b"), some (strL "John_Doe x"), none⟩)
          ++ strL " CV") :=
  ⟨by decide,
   C9_display_title ⟨some (strL "a"), some (strL "b"), some (strL "John_Doe x"), none⟩
     llm0 (by decide)⟩

/-! ## C1: where the splitter cuts -/

theorem goSplit_ne_nil (s : List Char) : ∀ acc, goSplit acc s ≠ [] := by
  induction s with
  | nil => intro acc; simp [goSplit]
  | cons c rest ih =>
    intro acc
    by_cases h : isLabelAt (c :: rest) <;> simp [goSplit, h]
    exact ih (c :: acc)

theorem goSplit_flatten (s : List Char) :
    ∀ acc, (goSplit acc s).flatMap id = acc.reverse ++ s := by
  induction s with
  | nil => intro acc; simp [goSplit]
  | cons c rest ih =>
    intro acc
    by_cases h : isLabelAt (c :: rest)
    · have hred : goSplit acc (c :: rest) = acc.reverse :: goSplit [c] rest := by
        simp [goSplit, h]
      rw [hred, List.flatMap_cons, ih [c]]
      simp
    · have hred : goSplit acc (c :: rest) = goSplit (c :: acc) rest := by
        simp [goSplit, h]
      rw [hred, ih (c :: acc)]
      simp

/-- Reassembling the pieces of the label split recovers the input. -/
theorem pySplitLabels_flatten (s : List Char) :
    (pySplitLabels s).flatMap id = s := by
  simpa using goSplit_flatten s []

theorem cutsOf_cons_cons (p q : List Char) (t : List (List Char)) :
    cutsOf (p :: q :: t) = p.length :: (cutsOf (q :: t)).map (· + p.length) := rfl

theorem cutsOf_goSplit (s : List Char) :
    ∀ acc, cutsOf (goSplit acc s) = (labelIdxs s).map (· + acc.length) := by
  induction s with
  | nil => intro acc; simp [goSplit, cutsOf, labelIdxs]
  | cons c rest ih =>
    intro acc
    by_cases h : isLabelAt (c :: rest)
    · have hred : goSplit acc (c :: rest) = acc.reverse :: goSplit [c] rest := by
        simp [goSplit, h]
      have hl : labelIdxs (c :: rest) = 0 :: (labelIdxs rest).map (· + 1) := by
        simp [labelIdxs, h]
      obtain ⟨g, t, hgt⟩ : ∃ g t, goSplit [c] rest = g :: t := by
        cases hx : goSplit [c] rest with
        | nil => exact absurd hx (goSplit_ne_nil rest [c])
        | cons g t => exact ⟨g, t, rfl⟩
      rw [hred, hgt, cutsOf_cons_cons, ← hgt, ih [c], hl]
      simp only [List.map_cons, List.map_map, List.length_reverse, Nat.zero_add]
      constructor
    · have hred : goSplit acc (c :: rest) = goSplit (c :: acc) rest := by
        simp [goSplit, h]
      have hl : labelIdxs (c :: rest) = (labelIdxs rest).map (· + 1) := by
        simp [labelIdxs, h]
      rw [hred, ih (c :: acc), hl]
      simp only [List.map_map, List.length_cons]
      congr 1
      funext i
      simp
      omega

theorem labelIdxs_mem (s : List Char) :
    ∀ i, i ∈ labelIdxs s ↔ i < s.length ∧ isLabelAt (s.drop i) = true := by
  induction s with
  | nil => intro i; simp [labelIdxs]
  | cons c rest ih =>
    intro i
    cases i with
    | zero =>
      by_cases h : isLabelAt (c :: rest) <;>
        simp [labelIdxs, h, List.mem_map]
    | succ j =>
      by_cases h : isLabelAt (c :: rest) <;>
        simp [labelIdxs, h, List.mem_map, ih j, Nat.succ_lt_succ_iff]

/-- C1 counterexample: in `"Summary\nI enjoy Education topics"` the label
`Education` occurs only in the middle of a prose line (position 16, preceded
on its line by `"I enjoy "`), yet the splitter cuts there: a new Section
starts at a label occurrence that is *not* anchored at a line boundary. -/
theorem C1_counterexample :
    isLabelAt ((strL "Summary\nI enjoy Education topics").drop 16) = true ∧
    specAnchoredLabelAt (strL "Summary\nI enjoy Education topics") 16 = false ∧
    16 ∈ cutsOf (pySplitLabels (strL "Summary\nI enjoy Education topics")) ∧
    (docxSections (strL "Summary\nI enjoy Education topics")).map CvSection.heading
      = [strL "Summary", strL "Education topics"] := by
  refine ⟨by decide, by decide, ?_, by decide⟩
  decide

/-- C1 (amended): the splitter cuts at **every** occurrence of a label,
anchored or not: the cut positions of `re.split(r"(?=Summary|...)", s)` are
exactly the positions of `s` at which some label string starts, with no
line-boundary condition. -/
theorem C1_cuts_at_every_label (s : List Char) :
    cutsOf (pySplitLabels s) = labelIdxs s ∧
    (∀ i, i ∈ labelIdxs s ↔ i < s.length ∧ isLabelAt (s.drop i) = true) := by
  constructor
  · simpa using cutsOf_goSplit s []
  · exact labelIdxs_mem s

/-! ## C2: the splitter drops no non-whitespace character -/

theorem lineBreak_isSpace {c : Char} (h : isLineBreakChar c = true) :
    isPySpace c = true := by
  simp only [isLineBreakChar, Bool.or_eq_true, decide_eq_true_eq] at h
  simp only [isPySpace, Bool.or_eq_true, decide_eq_true_eq]
  tauto

theorem breakSplit_ne_nil (l : List Char) : breakSplit l ≠ [] := by
  induction l using breakSplit.induct with
  | case1 => simp [breakSplit]
  | case2 rest ih => simp [breakSplit]
  | case3 c rest hpat hbr ih =>
    rw [breakSplit.eq_3 _ _ hpat]
    simp [hbr]
  | case4 c rest hpat hbr hnil ih =>
    rw [breakSplit.eq_3 _ _ hpat]
    simp [hbr, hnil]
  | case5 c rest hpat hbr h t hht ih =>
    rw [breakSplit.eq_3 _ _ hpat]
    simp [hbr, hht]

theorem removeWs_cons_of_space {c : Char} (l : List Char)
    (h : isPySpace c = true) : removeWs (c :: l) = removeWs l := by
  simp [removeWs, h]

theorem removeWs_cons_of_not_space {c : Char} (l : List Char)
    (h : isPySpace c = false) : removeWs (c :: l) = c :: removeWs l := by
  simp [removeWs, h]

theorem removeWs_append (a b : List Char) :
    removeWs (a ++ b) = removeWs a ++ removeWs b := by
  simp [removeWs, List.filter_append]

theorem removeWs_dropWhile (l : List Char) :
    removeWs (l.dropWhile isPySpace) = removeWs l := by
  induction l with
  | nil => rfl
  | cons c rest ih =>
    by_cases h : isPySpace c
    · rw [List.dropWhile_cons_of_pos h, ih, removeWs_cons_of_space rest h]
    · rw [List.dropWhile_cons_of_neg h]

theorem removeWs_nil_of_dropTrail_nil {l : List Char} (h : dropTrail l = []) :
    removeWs l = [] := by
  induction l with
  | nil => rfl
  | cons c rest ih =>
    simp only [dropTrail] at h
    by_cases hc : (dropTrail rest).isEmpty && isPySpace c
    · rw [if_pos hc] at h
      simp only [Bool.and_eq_true, List.isEmpty_iff] at hc
      rw [removeWs_cons_of_space rest hc.2, ih hc.1]
    · rw [if_neg hc] at h
      exact absurd h (by simp)

theorem removeWs_dropTrail (l : List Char) :
    removeWs (dropTrail l) = removeWs l := by
  induction l with
  | nil => rfl
  | cons c rest ih =>
    simp only [dropTrail]
    by_cases hc : (dropTrail rest).isEmpty && isPySpace c
    · rw [if_pos hc]
      simp only [Bool.and_eq_true, List.isEmpty_iff] at hc
      rw [removeWs_cons_of_space rest hc.2]
      exact (removeWs_nil_of_dropTrail_nil hc.1).symm.trans (by rw [← ih, hc.1])
    · rw [if_neg hc]
      by_cases hs : isPySpace c
      · rw [removeWs_cons_of_space (dropTrail rest) hs,
          removeWs_cons_of_space rest hs, ih]
      · rw [removeWs_cons_of_not_space (dropTrail rest) (by simpa using hs),
          removeWs_cons_of_not_space rest (by simpa using hs), ih]

theorem removeWs_pystrip (l : List Char) : removeWs (pystrip l) = removeWs l := by
  unfold pystrip
  rw [removeWs_dropTrail, removeWs_dropWhile]

theorem removeWs_breakSplit (l : List Char) :
    (breakSplit l).flatMap removeWs = removeWs l := by
  induction l using breakSplit.induct with
  | case1 => simp [breakSplit, removeWs]
  | case2 rest ih =>
    show ([] :: breakSplit rest).flatMap removeWs = _
    rw [List.flatMap_cons, ih]
    rw [removeWs_cons_of_space _ (by decide), removeWs_cons_of_space _ (by decide)]
    rfl
  | case3 c rest hpat hbr ih =>
    rw [breakSplit.eq_3 _ _ hpat, if_pos hbr, List.flatMap_cons, ih,
      removeWs_cons_of_space rest (lineBreak_isSpace hbr)]
    rfl
  | case4 c rest hpat hbr hnil ih =>
    exact absurd hnil (breakSplit_ne_nil rest)
  | case5 c rest hpat hbr h t hht ih =>
    rw [breakSplit.eq_3 _ _ hpat, if_neg hbr]
    rw [hht] at ih ⊢
    simp only [List.flatMap_cons] at ih ⊢
    by_cases hs : isPySpace c
    · rw [removeWs_cons_of_space h hs, removeWs_cons_of_space rest hs]
      exact ih
    · rw [removeWs_cons_of_not_space h (by simpa using hs),
        removeWs_cons_of_not_space rest (by simpa using hs)]
      simp only [List.cons_append]
      rw [ih]

theorem getLast?_decomp {α : Type} {ps : List α} {x : α}
    (h : ps.getLast? = some x) : ps = ps.dropLast ++ [x] := by
  induction ps with
  | nil => simp at h
  | cons a t ih =>
    cases t with
    | nil =>
      simp only [List.getLast?_singleton, Option.some.injEq] at h
      subst h
      rfl
    | cons b u =>
      have h2 : (b :: u).getLast? = some x := by
        simpa [List.getLast?_cons_cons] using h
      have h3 := ih h2
      show a :: (b :: u) = (a :: b :: u).dropLast ++ [x]
      have hdl : (a :: b :: u).dropLast = a :: (b :: u).dropLast := rfl
      rw [hdl, List.cons_append, ← h3]

theorem breakSplit_singleton {l : List Char} (h : breakSplit l = [[]]) :
    l = [] := by
  induction l using breakSplit.induct with
  | case1 => rfl
  | case2 rest ih =>
    exfalso
    have : ([] : List Char) :: breakSplit rest = [[]] := h
    simp only [List.cons.injEq] at this
    exact breakSplit_ne_nil rest this.2
  | case3 c rest hpat hbr ih =>
    exfalso
    rw [breakSplit.eq_3 _ _ hpat, if_pos hbr] at h
    simp only [List.cons.injEq] at h
    exact breakSplit_ne_nil rest h.2
  | case4 c rest hpat hbr hnil ih =>
    exact absurd hnil (breakSplit_ne_nil rest)
  | case5 c rest hpat hbr hh t hht ih =>
    exfalso
    rw [breakSplit.eq_3 _ _ hpat, if_neg hbr, hht] at h
    simp at h

theorem splitlines_eq_nil {l : List Char} (h : splitlines l = []) : l = [] := by
  by_contra hne
  unfold splitlines at h
  rw [if_neg (by simpa [List.isEmpty_iff] using hne)] at h
  by_cases hl : (breakSplit l).getLast? = some []
  · rw [if_pos hl] at h
    cases hps : breakSplit l with
    | nil => exact breakSplit_ne_nil l hps
    | cons x t =>
      cases t with
      | nil =>
        rw [hps] at hl
        simp only [List.getLast?_singleton, Option.some.injEq] at hl
        subst hl
        exact hne (breakSplit_singleton hps)
      | cons y u =>
        rw [hps] at h
        have : (x :: y :: u).dropLast = x :: (y :: u).dropLast := rfl
        rw [this] at h
        simp at h
  · rw [if_neg hl] at h
    exact breakSplit_ne_nil l h

theorem removeWs_splitlines (l : List Char) :
    (splitlines l).flatMap removeWs = removeWs l := by
  unfold splitlines
  by_cases h0 : l.isEmpty
  · rw [if_pos h0]
    have : l = [] := by simpa [List.isEmpty_iff] using h0
    subst this
    rfl
  · rw [if_neg h0]
    by_cases hl : (breakSplit l).getLast? = some []
    · rw [if_pos hl]
      have h2 := removeWs_breakSplit l
      have hsplit := getLast?_decomp hl
      rw [hsplit] at h2
      simpa [List.flatMap_append, removeWs] using h2
    · rw [if_neg hl]
      exact removeWs_breakSplit l

theorem removeWs_joinNL (ls : List (List Char)) :
    removeWs (joinNL ls) = ls.flatMap removeWs := by
  induction ls with
  | nil => rfl
  | cons l ls2 ih =>
    cases ls2 with
    | nil => simp [joinNL, List.flatMap_cons]
    | cons l2 t =>
      show removeWs (l ++ '\n' :: joinNL (l2 :: t)) = _
      rw [removeWs_append, removeWs_cons_of_space _ (by decide), ih,
        List.flatMap_cons]
      simp

theorem pieceToSection_none_removeWs {p : List Char}
    (h : pieceToSection p = none) : removeWs p = [] := by
  unfold pieceToSection at h
  cases hs : splitlines (pystrip p) with
  | cons l0 t =>
    rw [hs] at h
    simp at h
  | nil =>
    have hp : pystrip p = [] := splitlines_eq_nil hs
    have := removeWs_pystrip p
    rw [hp] at this
    exact this.symm

theorem pieceToSection_some_removeWs {p : List Char} {sec : CvSection}
    (h : pieceToSection p = some sec) :
    removeWs (sec.heading ++ sec.body) = removeWs p := by
  unfold pieceToSection at h
  cases hs : splitlines (pystrip p) with
  | nil =>
    rw [hs] at h
    simp at h
  | cons l0 t =>
    rw [hs] at h
    simp only [Option.some.injEq] at h
    subst h
    show removeWs (pystrip l0 ++ pystrip (joinNL t)) = _
    rw [removeWs_append, removeWs_pystrip, removeWs_pystrip, removeWs_joinNL]
    have h4 := removeWs_splitlines (pystrip p)
    rw [hs, List.flatMap_cons] at h4
    rw [h4, removeWs_pystrip]

theorem splitter_pieces_removeWs (ps : List (List Char)) :
    removeWs ((ps.filterMap pieceToSection).flatMap fun sec =>
        sec.heading ++ sec.body) =
      removeWs (ps.flatMap id) := by
  induction ps with
  | nil => rfl
  | cons p t ih =>
    cases hp : pieceToSection p with
    | none =>
      rw [List.filterMap_cons_none hp, List.flatMap_cons, removeWs_append, ih]
      simp [pieceToSection_none_removeWs hp]
    | some sec =>
      rw [List.filterMap_cons_some hp, List.flatMap_cons,
        List.flatMap_cons, removeWs_append, removeWs_append, ih]
      have hps := pieceToSection_some_removeWs hp
      rw [removeWs_append] at hps
      rw [hps]
      simp [removeWs_append]

/-- C2 (confirmed): concatenating, in order, all Section headings and bodies
produced by the splitter reconstructs the original text up to whitespace
normalization: the non-whitespace characters (in order) of the split output
equal those of the input, so no non-whitespace character is dropped or
duplicated. -/
theorem C2_splitter_reconstructs (s : List Char) :
    removeWs (splitterText s) = removeWs s := by
  unfold splitterText docxSections
  rw [splitter_pieces_removeWs, pySplitLabels_flatten]

/-! ## C3: text before the first label / no-label text -/

theorem firstLabelIdx_le (s : List Char) : firstLabelIdx s ≤ s.length := by
  induction s with
  | nil => simp [firstLabelIdx]
  | cons c rest ih =>
    by_cases h : isLabelAt (c :: rest)
    · simp [firstLabelIdx, h]
    · have hfi : firstLabelIdx (c :: rest) = firstLabelIdx rest + 1 := by
        simp [firstLabelIdx, h]
      rw [hfi]
      simp only [List.length_cons]
      omega

theorem firstLabelIdx_min (s : List Char) :
    ∀ j, j < firstLabelIdx s → isLabelAt (s.drop j) = false := by
  induction s with
  | nil => intro j hj; simp [firstLabelIdx] at hj
  | cons c rest ih =>
    intro j hj
    by_cases h : isLabelAt (c :: rest)
    · rw [show firstLabelIdx (c :: rest) = 0 by simp [firstLabelIdx, h]] at hj
      exact absurd hj (Nat.not_lt_zero j)
    · have hfi : firstLabelIdx (c :: rest) = firstLabelIdx rest + 1 := by
        simp [firstLabelIdx, h]
      rw [hfi] at hj
      cases j with
      | zero => simpa using h
      | succ k =>
        rw [List.drop_succ_cons]
        exact ih k (by omega)

theorem firstLabelIdx_hit (s : List Char) :
    firstLabelIdx s < s.length → isLabelAt (s.drop (firstLabelIdx s)) = true := by
  induction s with
  | nil => intro h; simp [firstLabelIdx] at h
  | cons c rest ih =>
    intro h
    by_cases hl : isLabelAt (c :: rest)
    · simp [firstLabelIdx, hl]
    · have hfi : firstLabelIdx (c :: rest) = firstLabelIdx rest + 1 := by
        simp [firstLabelIdx, hl]
      rw [hfi] at h ⊢
      rw [List.drop_succ_cons]
      exact ih (by simp only [List.length_cons] at h; omega)

theorem goSplit_first (s : List Char) : ∀ acc,
    goSplit acc s =
      (acc.reverse ++ s.take (firstLabelIdx s)) ::
        (match s.drop (firstLabelIdx s) with
         | [] => []
         | c :: rest => goSplit [c] rest) := by
  induction s with
  | nil => intro acc; simp [goSplit, firstLabelIdx]
  | cons c rest ih =>
    intro acc
    by_cases h : isLabelAt (c :: rest)
    · have hred : goSplit acc (c :: rest) = acc.reverse :: goSplit [c] rest := by
        simp [goSplit, h]
      have hfi : firstLabelIdx (c :: rest) = 0 := by simp [firstLabelIdx, h]
      rw [hred, hfi]
      simp
    · have hred : goSplit acc (c :: rest) = goSplit (c :: acc) rest := by
        simp [goSplit, h]
      have hfi : firstLabelIdx (c :: rest) = firstLabelIdx rest + 1 := by
        simp [firstLabelIdx, h]
      rw [hred, ih (c :: acc), hfi]
      simp

theorem filterMap_piece_single (p : List Char) :
    List.filterMap pieceToSection [p] =
      (match splitlines (pystrip p) with
       | [] => []
       | h :: t => [CvSection.mk (pystrip h) (pystrip (joinNL t))]) := by
  simp only [List.filterMap_cons, List.filterMap_nil]
  unfold pieceToSection
  cases hs : splitlines (pystrip p) with
  | nil => rfl
  | cons h t => rfl

theorem docxSections_nil : docxSections [] = [] := by decide

theorem docxSections_label_cons {c : Char} {rest : List Char}
    (h : isLabelAt (c :: rest) = true) :
    docxSections (c :: rest) =
      List.filterMap pieceToSection (goSplit [c] rest) := by
  have h0 : pieceToSection ([] : List Char) = none := by decide
  unfold docxSections pySplitLabels
  have hred : goSplit [] (c :: rest) = [].reverse :: goSplit [c] rest := by
    simp [goSplit, h]
  rw [hred]
  simp [h0]

/-- C3 counterexample: `"John Doe"` contains no recognised label, and
splitting yields exactly one Section — but its heading is the first line
`"John Doe"` itself (promoted to a heading) and its body is empty; there is
no sentinel `"unlabeled"` heading holding the trimmed original text. -/
theorem C3_counterexample :
    docxSections (strL "John Doe") =
      [⟨strL "John Doe", []⟩] ∧
    strL "John Doe" ≠ strL "unlabeled" ∧
    ([] : List Char) ≠ strL "John Doe" := by
  refine ⟨by decide, by decide, by decide⟩

/-- C3 (amended): for **every** input, the piece before the first label
occurrence — `s.take (firstLabelIdx s)`, the whole text when no label occurs
— never receives a sentinel `"unlabeled"` heading: after stripping, its
**first line is promoted to the heading** and its remaining lines (joined
and stripped) form the body, while a stripped-empty piece yields no Section
at all; the Sections of the rest of the text follow.  The first three
conjuncts certify that `firstLabelIdx s` is the position of the first label
match: it lies within the text, no label starts before it, and a label
starts exactly there whenever it is a proper position of the text. -/
theorem C3_pre_first_label_promoted (s : List Char) :
    firstLabelIdx s ≤ s.length ∧
    (∀ j, j < firstLabelIdx s → isLabelAt (s.drop j) = false) ∧
    (firstLabelIdx s < s.length → isLabelAt (s.drop (firstLabelIdx s)) = true) ∧
    docxSections s =
      (match splitlines (pystrip (s.take (firstLabelIdx s))) with
       | [] => []
       | h :: t => [CvSection.mk (pystrip h) (pystrip (joinNL t))]) ++
      docxSections (s.drop (firstLabelIdx s)) := by
  refine ⟨firstLabelIdx_le s, firstLabelIdx_min s, firstLabelIdx_hit s, ?_⟩
  cases hd : s.drop (firstLabelIdx s) with
  | nil =>
    have hsplit := goSplit_first s []
    rw [hd] at hsplit
    have h1 : docxSections s =
        List.filterMap pieceToSection [s.take (firstLabelIdx s)] := by
      unfold docxSections pySplitLabels
      rw [hsplit]
      rfl
    rw [h1, filterMap_piece_single, docxSections_nil, List.append_nil]
  | cons c rest =>
    have hlen : firstLabelIdx s < s.length := by
      by_contra hge
      push_neg at hge
      rw [List.drop_eq_nil_of_le hge] at hd
      simp at hd
    have hlab : isLabelAt (c :: rest) = true := by
      rw [← hd]
      exact firstLabelIdx_hit s hlen
    have hsplit := goSplit_first s []
    rw [hd] at hsplit
    have h1 : docxSections s =
        List.filterMap pieceToSection
          (s.take (firstLabelIdx s) :: goSplit [c] rest) := by
      unfold docxSections pySplitLabels
      rw [hsplit]
      rfl
    rw [h1, docxSections_label_cons hlab, ← filterMap_piece_single,
      ← List.filterMap_append, List.singleton_append]

/-- Witness for `C3_pre_first_label_promoted` at the label-containing text
`"John Doe\nEngineer\nSummary\nDid X"`: the first label (`Summary`) starts
at position 18, the two preceding lines form the first Section with
`"John Doe"` promoted to its heading, and the remaining Sections are those
of the text from the label on. -/
theorem C3_pre_first_label_promoted_witness :
    firstLabelIdx (strL "John Doe\nEngineer\nSummary\nDid X") = 18 ∧
    isLabelAt ((strL "John Doe\nEngineer\nSummary\nDid X").drop
      (firstLabelIdx (strL "John Doe\nEngineer\nSummary\nDid X"))) = true ∧
    docxSections (strL "John Doe\nEngineer\nSummary\nDid X") =
      CvSection.mk (strL "John Doe") (strL "Engineer") ::
        docxSections (strL "Summary\nDid X") := by
  refine ⟨by decide,
    (C3_pre_first_label_promoted
      (strL "John Doe\nEngineer\nSummary\nDid X")).2.2.1 (by decide), ?_⟩
  rw [(C3_pre_first_label_promoted
    (strL "John Doe\nEngineer\nSummary\nDid X")).2.2.2]
  decide

/-! ## C4: the cleanup filter and recognised heading lines -/

theorem getElem?_append_left {a b : List Char} {i : Nat} (h : i < a.length) :
    (a ++ b)[i]? = a[i]? := by
  rw [List.getElem?_append]
  simp [h]

theorem getElem?_append_right2 {a b : List Char} {i : Nat} (h : a.length ≤ i) :
    (a ++ b)[i]? = b[i - a.length]? := by
  rw [List.getElem?_append]
  simp [Nat.not_lt.mpr h]

theorem drop_takeWhile_length (p : Char → Bool) (l : List Char) :
    l.drop (l.takeWhile p).length = l.dropWhile p := by
  induction l with
  | nil => rfl
  | cons c rest ih =>
    by_cases h : p c <;> simp [List.takeWhile_cons, List.dropWhile_cons, h, ih]

theorem ciStartsWith_decomp {pat s : List Char}
    (h : ciStartsWith pat s = true) :
    ∃ a b, s = a ++ b ∧ a.map Char.toLower = pat ∧ a.length = pat.length := by
  induction pat generalizing s with
  | nil => exact ⟨[], s, rfl, rfl, rfl⟩
  | cons p ps ih =>
    cases s with
    | nil => simp [ciStartsWith] at h
    | cons c cs =>
      simp only [ciStartsWith, Bool.and_eq_true, decide_eq_true_eq] at h
      obtain ⟨a, b, hab, hmap, hlen⟩ := ih h.2
      exact ⟨c :: a, b, by rw [hab]; rfl,
        by simp [List.map_cons, hmap, h.1], by simp [hlen]⟩

theorem ciStartsWith_take {pat : List Char} :
    ∀ a b, ciStartsWith pat (a ++ b) = true →
      ciStartsWith (pat.take a.length) a = true := by
  induction pat with
  | nil =>
    intro a b _
    cases a <;> simp [ciStartsWith, List.take]
  | cons p ps ih =>
    intro a b h
    cases a with
    | nil => simp [ciStartsWith, List.take]
    | cons c a2 =>
      simp only [List.cons_append, ciStartsWith, Bool.and_eq_true] at h
      simp only [List.length_cons, List.take_succ_cons, ciStartsWith,
        Bool.and_eq_true]
      exact ⟨h.1, ih a2 b h.2⟩

theorem matchTailored_none_of {s : List Char}
    (h : ciStartsWith (strL "tailored") s = false) : matchTailored s = none := by
  unfold matchTailored
  rw [h]
  simp

theorem matchTailored_decomp {s : List Char} {n : Nat}
    (h : matchTailored s = some n) :
    ∃ a w v rest, s = a ++ (w ++ (v ++ rest)) ∧
      a.map Char.toLower = strL "tailored" ∧ a.length = 8 ∧
      (∀ c ∈ w, isPySpace c = true) ∧
      (v.map Char.toLower = strL "cv" ∨ v.map Char.toLower = strL "resume") ∧
      n = a.length + (w.length + v.length) := by
  unfold matchTailored at h
  split at h
  case isFalse => exact absurd h (by simp)
  case isTrue h8 =>
    obtain ⟨a, b, hab, hmap, hlen⟩ := ciStartsWith_decomp h8
    have hlen8 : a.length = 8 := by rw [hlen]; rfl
    have hb : b = s.drop 8 := by
      rw [hab, ← hlen8, List.drop_left]
    have hw : wsLen s = (b.takeWhile isPySpace).length := by
      rw [wsLen, ← hb]
    have hws : afterWs s = b.dropWhile isPySpace := by
      rw [afterWs, ← hb, hw, drop_takeWhile_length]
    split at h
    case isTrue hcv =>
      obtain ⟨v, rest, hvr, hvmap, hvlen⟩ := ciStartsWith_decomp hcv
      simp only [Option.some.injEq] at h
      refine ⟨a, b.takeWhile isPySpace, v, rest, ?_, hmap, hlen8, ?_,
        Or.inl hvmap, ?_⟩
      · calc s = a ++ b := hab
          _ = a ++ (b.takeWhile isPySpace ++ b.dropWhile isPySpace) := by
              rw [List.takeWhile_append_dropWhile]
          _ = a ++ (b.takeWhile isPySpace ++ (v ++ rest)) := by
              rw [← hws, hvr]
      · intro c hc
        exact List.mem_takeWhile_imp hc
      · rw [← h, hlen8, ← hw]
        have : v.length = 2 := by rw [hvlen]; rfl
        omega
    case isFalse hcv =>
      split at h
      case isFalse => exact absurd h (by simp)
      case isTrue hres =>
        obtain ⟨v, rest, hvr, hvmap, hvlen⟩ := ciStartsWith_decomp hres
        simp only [Option.some.injEq] at h
        refine ⟨a, b.takeWhile isPySpace, v, rest, ?_, hmap, hlen8, ?_,
          Or.inr hvmap, ?_⟩
        · calc s = a ++ b := hab
            _ = a ++ (b.takeWhile isPySpace ++ b.dropWhile isPySpace) := by
                rw [List.takeWhile_append_dropWhile]
            _ = a ++ (b.takeWhile isPySpace ++ (v ++ rest)) := by
                rw [← hws, hvr]
        · intro c hc
          exact List.mem_takeWhile_imp hc
        · rw [← h, hlen8, ← hw]
          have : v.length = 6 := by rw [hvlen]; rfl
          omega

theorem lab_len : ∀ l ∈ labelsL, 2 ≤ l.length := by decide

theorem lab_no_sep : ∀ l ∈ labelsL, ∀ c ∈ l, isSep c = false := by decide

theorem lab_head_not_space : ∀ l ∈ labelsL, l.head?.any isPySpace = false := by
  decide

theorem lab_last_not_space : ∀ l ∈ labelsL, l.getLast?.any isPySpace = false := by
  decide

theorem lab_head_not_cvr : ∀ l ∈ labelsL,
    (l.head?.any (fun c => c.toLower == 'c') = false ∨
      l.tail.head?.any (fun c => c.toLower == 'v') = false) ∧
    l.head?.any (fun c => c.toLower == 'r') = false := by decide

theorem lab_tails_not_tailored : ∀ l ∈ labelsL, ∀ u ∈ l.tails,
    u = [] ∨ ciStartsWith ((strL "tailored").take u.length) u = false := by
  decide

/-- If the pattern `(?i)tailored\s*(cv|resume)` matches at the start of
`pre0 ++ "\n" ++ lbl ++ post` where `lbl` is a recognised label standing at
the start of its line, the whole match lies inside `pre0`: it can touch
neither the newline guarding the heading line nor the label itself. -/
theorem match_span_le {lbl : List Char} (hl : lbl ∈ labelsL)
    {pre0 post u : List Char} {n : Nat}
    (hu : u = pre0 ++ '\n' :: (lbl ++ post))
    (h : matchTailored u = some n) :
    n ≤ pre0.length := by
  by_contra hgt
  push_neg at hgt
  obtain ⟨a, w, v, rest, hdec, hamap, halen, hwsp, hvmap, hn⟩ :=
    matchTailored_decomp h
  have hvl : v.length = 2 ∨ v.length = 6 := by
    rcases hvmap with hv | hv
    · left
      have := congrArg List.length hv
      simpa using this
    · right
      have := congrArg List.length hv
      simpa using this
  have hlen2 := lab_len lbl hl
  obtain ⟨l0, ltl, hlbl⟩ : ∃ l0 ltl, lbl = l0 :: ltl := by
    cases lbl with
    | nil => simp at hlen2
    | cons x xs => exact ⟨x, xs, rfl⟩
  obtain ⟨l1, lt2, hltl⟩ : ∃ l1 lt2, ltl = l1 :: lt2 := by
    cases ltl with
    | nil =>
      rw [hlbl] at hlen2
      simp at hlen2
    | cons y ys => exact ⟨y, ys, rfl⟩
  set q := pre0.length with hq
  have hNL : u[q]? = some '\n' := by
    rw [hu, getElem?_append_right2 (Nat.le_refl _)]
    simp
  have hassoc : u = (pre0 ++ ['\n']) ++ (lbl ++ post) := by
    rw [hu]
    simp
  have hL0 : u[q + 1]? = some l0 := by
    rw [hassoc, getElem?_append_right2 (by simp [hq])]
    simp [hq, hlbl]
  have hL1 : u[q + 2]? = some l1 := by
    rw [hassoc, getElem?_append_right2 (by simp [hq])]
    have h12 : q + 2 - (pre0 ++ ['\n']).length = 1 := by simp [hq]
    rw [h12, hlbl, hltl]
    simp
  rcases Nat.lt_or_ge q 8 with hq8 | hq8
  · have ha : a[q]? = some '\n' := by
      rw [hdec, getElem?_append_left (by omega)] at hNL
      exact hNL
    have : ('\n' : Char).toLower ∈ strL "tailored" := by
      rw [← hamap]
      exact List.mem_map_of_mem _ (List.getElem?_mem ha)
    revert this
    decide
  · rcases Nat.lt_or_ge q (8 + w.length) with hqW | hqW
    · rcases Nat.lt_or_ge (q + 1) (8 + w.length) with hq1W | hq1W
      · have hx : (w ++ (v ++ rest))[q + 1 - 8]? = some l0 := by
          rw [hdec, getElem?_append_right2 (by omega)] at hL0
          rw [halen] at hL0
          exact hL0
        have hx2 : w[q + 1 - 8]? = some l0 := by
          rw [getElem?_append_left (by omega)] at hx
          exact hx
        have hsp := hwsp l0 (List.getElem?_mem hx2)
        have hns := lab_head_not_space lbl hl
        rw [hlbl] at hns
        simp [hsp] at hns
      · have hq1 : q + 1 = 8 + w.length := by omega
        have hv0 : v[0]? = some l0 := by
          rw [hdec, getElem?_append_right2 (by omega)] at hL0
          rw [halen] at hL0
          rw [getElem?_append_right2 (by omega)] at hL0
          have : q + 1 - 8 - w.length = 0 := by omega
          rw [this] at hL0
          rw [getElem?_append_left (by omega)] at hL0
          exact hL0
        have hv1 : v[1]? = some l1 := by
          have hvlen2 : 2 ≤ v.length := by omega
          rw [hdec, getElem?_append_right2 (by omega)] at hL1
          rw [halen] at hL1
          rw [getElem?_append_right2 (by omega)] at hL1
          have : q + 2 - 8 - w.length = 1 := by omega
          rw [this] at hL1
          rw [getElem?_append_left (by omega)] at hL1
          exact hL1
        have hcvr := lab_head_not_cvr lbl hl
        rw [hlbl, hltl] at hcvr
        rcases hvmap with hv | hv
        · have h0 : l0.toLower = 'c' := by
            have := List.getElem?_map Char.toLower v 0
            rw [hv, hv0] at this
            simp [strL] at this
            exact this.symm
          have h1 : l1.toLower = 'v' := by
            have := List.getElem?_map Char.toLower v 1
            rw [hv, hv1] at this
            simp [strL] at this
            exact this.symm
          simp [h0, h1] at hcvr
        · have h0 : l0.toLower = 'r' := by
            have := List.getElem?_map Char.toLower v 0
            rw [hv, hv0] at this
            simp [strL] at this
            exact this.symm
          simp [h0] at hcvr
    · have hqn : q < 8 + (w.length + v.length) := by omega
      have hvq : v[q - 8 - w.length]? = some '\n' := by
        rw [hdec, getElem?_append_right2 (by omega)] at hNL
        rw [halen] at hNL
        rw [getElem?_append_right2 (by omega)] at hNL
        rw [getElem?_append_left (by omega)] at hNL
        exact hNL
      have hmem : ('\n' : Char).toLower ∈ v.map Char.toLower :=
        List.mem_map_of_mem _ (List.getElem?_mem hvq)
      rcases hvmap with hv | hv <;> rw [hv] at hmem <;> revert hmem <;> decide

theorem ciStartsWith_tailored_head {c : Char} {cs : List Char}
    (h : c.toLower ≠ 't') :
    ciStartsWith (strL "tailored") (c :: cs) = false := by
  have he : strL "tailored" = 't' :: strL "ailored" := rfl
  rw [he]
  simp [ciStartsWith, h]

theorem sub1_cons_newline (x : List Char) : sub1 ('\n' :: x) = '\n' :: sub1 x := by
  apply sub1_cons
  exact matchTailored_none_of (ciStartsWith_tailored_head (by decide))

theorem sub1_label_suffix {l : List Char} (hl : l ∈ labelsL) :
    ∀ u, u <:+ l → ∀ post, sub1 (u ++ post) = u ++ sub1 post := by
  intro u
  induction u with
  | nil =>
    intro _ post
    simp
  | cons c u2 ih =>
    intro hsuf post
    have hnost : ciStartsWith (strL "tailored") (c :: (u2 ++ post)) = false := by
      cases hx : ciStartsWith (strL "tailored") (c :: (u2 ++ post)) with
      | false => rfl
      | true =>
        exfalso
        have hx2 : ciStartsWith (strL "tailored") ((c :: u2) ++ post) = true := hx
        have htake := ciStartsWith_take (c :: u2) post hx2
        have := lab_tails_not_tailored l hl (c :: u2)
          ((List.mem_tails _ _).mpr hsuf)
        rcases this with h0 | h0
        · simp at h0
        · rw [htake] at h0
          simp at h0
    have hsuf2 : u2 <:+ l := (List.suffix_cons c u2).trans hsuf
    rw [List.cons_append, sub1_cons (matchTailored_none_of hnost), ih hsuf2 post]
    rfl

theorem sub1_boundaryR {post : List Char}
    (h : post = [] ∨ post.head? = some '\n') :
    sub1 post = [] ∨ (sub1 post).head? = some '\n' := by
  rcases h with rfl | hh
  · left
    rfl
  · right
    cases post with
    | nil => simp at hh
    | cons c p2 =>
      simp only [List.head?_cons, Option.some.injEq] at hh
      subst hh
      rw [sub1_cons_newline]
      rfl

theorem sub1_mid {lbl : List Char} (hl : lbl ∈ labelsL) :
    ∀ u pre0 post, u = pre0 ++ '\n' :: (lbl ++ post) →
      (post = [] ∨ post.head? = some '\n') →
      ∃ q0 post2, sub1 u = q0 ++ '\n' :: (lbl ++ post2) ∧
        (post2 = [] ∨ post2.head? = some '\n') := by
  suffices H : ∀ N u pre0 post, u.length ≤ N →
      u = pre0 ++ '\n' :: (lbl ++ post) →
      (post = [] ∨ post.head? = some '\n') →
      ∃ q0 post2, sub1 u = q0 ++ '\n' :: (lbl ++ post2) ∧
        (post2 = [] ∨ post2.head? = some '\n') by
    exact fun u pre0 post hu hb => H u.length u pre0 post (Nat.le_refl _) hu hb
  intro N
  induction N with
  | zero =>
    intro u pre0 post hN hu _
    rw [hu] at hN
    simp at hN
  | succ N ih =>
    intro u pre0 post hN hu hb
    cases hm : matchTailored u with
    | some n =>
      have hle := match_span_le hl hu hm
      have hbnds := matchTailored_bounds hm
      rw [sub1_match hm]
      have hdrop : u.drop n = pre0.drop n ++ '\n' :: (lbl ++ post) := by
        rw [hu, List.drop_append_of_le_length hle]
      refine ih (u.drop n) (pre0.drop n) post ?_ hdrop hb
      simp only [List.length_drop]
      omega
    | none =>
      cases pre0 with
      | nil =>
        refine ⟨[], sub1 post, ?_, sub1_boundaryR hb⟩
        simp only [List.nil_append] at hu
        rw [hu, sub1_cons_newline,
          sub1_label_suffix hl lbl (List.suffix_refl lbl) post]
        rfl
      | cons c pre1 =>
        have hu2 : u = c :: (pre1 ++ '\n' :: (lbl ++ post)) := by
          rw [hu]
          rfl
        rw [hu2] at hm
        obtain ⟨q0, post2, hs, hb2⟩ :=
          ih (pre1 ++ '\n' :: (lbl ++ post)) pre1 post
            (by rw [hu2] at hN; simpa using Nat.le_of_succ_le_succ hN) rfl hb
        refine ⟨c :: q0, post2, ?_, hb2⟩
        rw [hu2, sub1_cons hm, hs]
        rfl

theorem sub1_preserves_heading {lbl s : List Char} (hl : lbl ∈ labelsL)
    (h : ContainsHeadingLine lbl s) : ContainsHeadingLine lbl (sub1 s) := by
  obtain ⟨pre, post, hs, hpre, hpost⟩ := h
  rcases hpre with rfl | hpre
  · refine ⟨[], sub1 post, ?_, Or.inl rfl, sub1_boundaryR hpost⟩
    simp only [List.nil_append] at hs
    rw [hs, sub1_label_suffix hl lbl (List.suffix_refl lbl) post]
    rfl
  · have hdec := getLast?_decomp hpre
    have hs2 : s = pre.dropLast ++ '\n' :: (lbl ++ post) := by
      rw [hs, hdec]
      simp
    obtain ⟨q0, post2, hsub, hb2⟩ := sub1_mid hl s pre.dropLast post hs2 hpost
    refine ⟨q0 ++ ['\n'], post2, ?_, Or.inr (by simp), hb2⟩
    rw [hsub]
    simp

theorem sub2_cons_newline (x : List Char) : sub2 ('\n' :: x) = '\n' :: sub2 x :=
  sub2_keep (Or.inl (by decide))

theorem sub2_label_suffix {l : List Char} (hl : l ∈ labelsL) :
    ∀ u, u <:+ l → ∀ post, sub2 (u ++ post) = u ++ sub2 post := by
  intro u
  induction u with
  | nil =>
    intro _ post
    simp
  | cons c u2 ih =>
    intro hsuf post
    have hc : c ∈ l := hsuf.subset (List.mem_cons_self c u2)
    have hsep := lab_no_sep l hl c hc
    have hsuf2 : u2 <:+ l := (List.suffix_cons c u2).trans hsuf
    rw [List.cons_append, sub2_keep (Or.inl hsep), ih hsuf2 post]
    rfl

theorem sub2_boundaryR {post : List Char}
    (h : post = [] ∨ post.head? = some '\n') :
    sub2 post = [] ∨ (sub2 post).head? = some '\n' := by
  rcases h with rfl | hh
  · left
    rfl
  · right
    cases post with
    | nil => simp at hh
    | cons c p2 =>
      simp only [List.head?_cons, Option.some.injEq] at hh
      subst hh
      rw [sub2_cons_newline]
      rfl

theorem dropWhile_append_cons_not {p : Char → Bool} {m : Char}
    (hm : p m = false) :
    ∀ a z, (a ++ m :: z).dropWhile p = a.dropWhile p ++ m :: z := by
  intro a z
  induction a with
  | nil => simp [List.dropWhile_cons, hm]
  | cons x a2 ih =>
    by_cases hx : p x
    · simp [List.dropWhile_cons, hx, ih]
    · simp [List.dropWhile_cons, hx]

theorem sub2_mid {lbl : List Char} (hl : lbl ∈ labelsL) :
    ∀ u pre0 post, u = pre0 ++ '\n' :: (lbl ++ post) →
      (post = [] ∨ post.head? = some '\n') →
      ∃ q0 post2, sub2 u = q0 ++ '\n' :: (lbl ++ post2) ∧
        (post2 = [] ∨ post2.head? = some '\n') := by
  suffices H : ∀ N u pre0 post, u.length ≤ N →
      u = pre0 ++ '\n' :: (lbl ++ post) →
      (post = [] ∨ post.head? = some '\n') →
      ∃ q0 post2, sub2 u = q0 ++ '\n' :: (lbl ++ post2) ∧
        (post2 = [] ∨ post2.head? = some '\n') by
    exact fun u pre0 post hu hb => H u.length u pre0 post (Nat.le_refl _) hu hb
  intro N
  induction N with
  | zero =>
    intro u pre0 post hN hu _
    rw [hu] at hN
    simp at hN
  | succ N ih =>
    intro u pre0 post hN hu hb
    cases pre0 with
    | nil =>
      refine ⟨[], sub2 post, ?_, sub2_boundaryR hb⟩
      simp only [List.nil_append] at hu
      rw [hu, sub2_cons_newline,
        sub2_label_suffix hl lbl (List.suffix_refl lbl) post]
      rfl
    | cons c pre1 =>
      have hu2 : u = c :: (pre1 ++ '\n' :: (lbl ++ post)) := by
        rw [hu]
        rfl
      have hNtail : (pre1 ++ '\n' :: (lbl ++ post)).length ≤ N := by
        rw [hu2] at hN
        simpa using Nat.le_of_succ_le_succ hN
      by_cases hrun : isSep c = true ∧
          (pre1 ++ '\n' :: (lbl ++ post)).head?.any isSep = true
      · have hdw : (pre1 ++ '\n' :: (lbl ++ post)).dropWhile isSep =
            pre1.dropWhile isSep ++ '\n' :: (lbl ++ post) :=
          dropWhile_append_cons_not (by decide) pre1 (lbl ++ post)
        rw [hu2, sub2_run hrun.1 hrun.2]
        refine ih ((pre1 ++ '\n' :: (lbl ++ post)).dropWhile isSep)
          (pre1.dropWhile isSep) post ?_ hdw hb
        have hlen := (List.dropWhile_suffix (l := pre1 ++ '\n' :: (lbl ++ post))
          (p := isSep)).length_le
        omega
      · have hkeep : isSep c = false ∨
            (pre1 ++ '\n' :: (lbl ++ post)).head?.any isSep = false := by
          by_cases h1 : isSep c
          · right
            cases h2 : (pre1 ++ '\n' :: (lbl ++ post)).head?.any isSep
            · rfl
            · exact absurd ⟨h1, h2⟩ hrun
          · left
            simpa using h1
        obtain ⟨q0, post2, hs, hb2⟩ :=
          ih (pre1 ++ '\n' :: (lbl ++ post)) pre1 post hNtail rfl hb
        refine ⟨c :: q0, post2, ?_, hb2⟩
        rw [hu2, sub2_keep hkeep, hs]
        rfl

theorem sub2_preserves_heading {lbl s : List Char} (hl : lbl ∈ labelsL)
    (h : ContainsHeadingLine lbl s) : ContainsHeadingLine lbl (sub2 s) := by
  obtain ⟨pre, post, hs, hpre, hpost⟩ := h
  rcases hpre with rfl | hpre
  · refine ⟨[], sub2 post, ?_, Or.inl rfl, sub2_boundaryR hpost⟩
    simp only [List.nil_append] at hs
    rw [hs, sub2_label_suffix hl lbl (List.suffix_refl lbl) post]
    rfl
  · have hdec := getLast?_decomp hpre
    have hs2 : s = pre.dropLast ++ '\n' :: (lbl ++ post) := by
      rw [hs, hdec]
      simp
    obtain ⟨q0, post2, hsub, hb2⟩ := sub2_mid hl s pre.dropLast post hs2 hpost
    refine ⟨q0 ++ ['\n'], post2, ?_, Or.inr (by simp), hb2⟩
    rw [hsub]
    simp

theorem head?_of_ne_nil_pre {l1 l2 : List Char} (h : l1 <+: l2)
    (hne : l1 ≠ []) : l2.head? = l1.head? := by
  obtain ⟨t, rfl⟩ := h
  cases l1 with
  | nil => exact absurd rfl hne
  | cons x xs => rfl

theorem getLast?_of_ne_nil_suffix {l1 l2 : List Char} (h : l1 <:+ l2)
    (hne : l1 ≠ []) : l2.getLast? = l1.getLast? := by
  obtain ⟨t, rfl⟩ := h
  exact List.getLast?_append_of_ne_nil _ hne

theorem dropTrail_singleton (x : Char) :
    dropTrail [x] = if isPySpace x then [] else [x] := by
  simp [dropTrail]

theorem dropTrail_of_last_not_space {l : List Char} {x : Char}
    (hgl : l.getLast? = some x) (hx : isPySpace x = false) :
    dropTrail l = l := by
  have hdec := getLast?_decomp hgl
  rw [hdec, dropTrail_append]
  rw [dropTrail_singleton, hx]
  simp

theorem lab_getLast {lbl : List Char} (hl : lbl ∈ labelsL) :
    ∃ x, lbl.getLast? = some x ∧ isPySpace x = false := by
  have hlen := lab_len lbl hl
  cases hgl : lbl.getLast? with
  | none =>
    rw [List.getLast?_eq_none_iff] at hgl
    rw [hgl] at hlen
    simp at hlen
  | some x =>
    refine ⟨x, rfl, ?_⟩
    have := lab_last_not_space lbl hl
    rw [hgl] at this
    simpa using this

theorem dropTrail_label (lbl : List Char) (hl : lbl ∈ labelsL) :
    dropTrail lbl = lbl := by
  obtain ⟨x, hgl, hx⟩ := lab_getLast hl
  exact dropTrail_of_last_not_space hgl hx

theorem lab_head {lbl : List Char} (hl : lbl ∈ labelsL) :
    ∃ l0 ltl, lbl = l0 :: ltl ∧ isPySpace l0 = false := by
  have hlen := lab_len lbl hl
  cases lbl with
  | nil => simp at hlen
  | cons l0 ltl =>
    refine ⟨l0, ltl, rfl, ?_⟩
    have := lab_head_not_space _ hl
    simpa using this

theorem pystrip_preserves_heading {lbl s : List Char} (hl : lbl ∈ labelsL)
    (h : ContainsHeadingLine lbl s) : ContainsHeadingLine lbl (pystrip s) := by
  obtain ⟨pre, post, hs, hpre, hpost⟩ := h
  obtain ⟨l0, ltl, hlbl, hl0⟩ := lab_head hl
  have hs' : s = pre ++ (lbl ++ post) := by rw [hs, List.append_assoc]
  -- Step 1: leading dropWhile
  have hstep1 : ∃ pre1, s.dropWhile isPySpace = pre1 ++ (lbl ++ post) ∧
      (pre1 = [] ∨ pre1.getLast? = some '\n') := by
    by_cases hemp : (pre.dropWhile isPySpace).isEmpty
    · refine ⟨[], ?_, Or.inl rfl⟩
      rw [hs', List.dropWhile_append, if_pos hemp, hlbl, List.cons_append,
        List.dropWhile_cons_of_neg (by simp [hl0])]
      simp
    · refine ⟨pre.dropWhile isPySpace, ?_, Or.inr ?_⟩
      · rw [hs', List.dropWhile_append, if_neg hemp]
      · have hne : pre.dropWhile isPySpace ≠ [] := by
          simpa [List.isEmpty_iff] using hemp
        have hpnn : pre ≠ [] := by
          intro hcontra
          rw [hcontra] at hne
          simp at hne
        rcases hpre with rfl | hpre
        · exact absurd rfl hpnn
        · rw [← getLast?_of_ne_nil_suffix (List.dropWhile_suffix isPySpace) hne]
          exact hpre
  obtain ⟨pre1, hdw, hpre1⟩ := hstep1
  -- Step 2: trailing dropTrail
  unfold pystrip
  rw [hdw]
  have hassoc : pre1 ++ (lbl ++ post) = (pre1 ++ lbl) ++ post := by simp
  rw [hassoc, dropTrail_append]
  by_cases hdt : dropTrail post = []
  · rw [if_pos hdt, dropTrail_append, dropTrail_label lbl hl,
      if_neg (by simp [hlbl])]
    exact ⟨pre1, [], by simp, hpre1, Or.inl rfl⟩
  · rw [if_neg hdt]
    refine ⟨pre1, dropTrail post, by simp, hpre1, Or.inr ?_⟩
    have hpostne : post ≠ [] := by
      intro hcontra
      rw [hcontra] at hdt
      exact hdt rfl
    rcases hpost with rfl | hpost
    · exact absurd rfl hpostne
    · rw [← hpost]
      exact (head?_of_ne_nil_pre (dropTrail_pre post) hdt).symm

/-- C4 counterexample: the cleanup filter is **not** idempotent.  On
`"tailored__cv"` the first pass removes only the separator run `"__"`,
creating the new artifact `"tailoredcv"`, which a second pass removes
entirely. -/
theorem C4_counterexample :
    clean_ai_output (clean_ai_output (strL "tailored__cv")) ≠
      clean_ai_output (strL "tailored__cv") := by
  decide

/-- C4 (amended): the cleanup filter is not idempotent in general (removing
a decorative separator can splice together a fresh `tailored cv/resume`
artifact), but it never removes or alters a recognised section-heading
line: any occurrence of a label as a full line of the input survives as a
full line of the output. -/
theorem C4_heading_lines_preserved (lbl : List Char) (hl : lbl ∈ labelsL)
    (s : List Char) (h : ContainsHeadingLine lbl s) :
    ContainsHeadingLine lbl (clean_ai_output s) := by
  unfold clean_ai_output
  exact pystrip_preserves_heading hl
    (sub2_preserves_heading hl (sub1_preserves_heading hl h))

/-- Witness for `C4_heading_lines_preserved`: the heading line `"Summary"`
survives the cleanup of `"tailored cv\nSummary\nskills"`. -/
theorem C4_heading_lines_preserved_witness :
    strL "Summary" ∈ labelsL ∧
    ContainsHeadingLine (strL "Summary") (strL "tailored cv\nSummary\nskills") ∧
    ContainsHeadingLine (strL "Summary")
      (clean_ai_output (strL "tailored cv\nSummary\nskills")) := by
  have hocc : ContainsHeadingLine (strL "Summary")
      (strL "tailored cv\nSummary\nskills") :=
    ⟨strL "tailored cv\n", strL "\nskills", by decide, Or.inr (by decide),
      Or.inr (by decide)⟩
  exact ⟨by decide, hocc,
    C4_heading_lines_preserved (strL "Summary") (by decide) _ hocc⟩
